import Mathlib

/-!
Shallow embedding of `uncompress_lzma2.c` (LZMA2 single-call decompressor).

Modelling conventions:
* Bytes are naturals; buffer reads use `List.getD _ _ 0`.
* `size_t` quantities (`incount`, `inlimit`, `outcount`) are unbounded naturals;
  every subtraction performed by the C code on them is guarded by the code itself
  (or by the reachable-state invariant `dict_origin <= outcount`,
  `outcount <= *outsizep`), so natural subtraction agrees with the C semantics
  on the reachable domain.
* `rc_code` and `rc_range` are declared `uint_least32_t` in C; the algorithm
  relies on exactly-32-bit wraparound (the top-bit test in the direct-bits
  loop), so stores into them are taken modulo 2^32.
* The output buffer is modelled as the list `out` of bytes written so far, so
  `outcount = out.length`.  The LZ77 copy `*dst++ = *src++` with
  `src = dst - dist - 1` is equivalent to appending, one byte at a time, the
  byte `dist + 1` positions before the current end of `out` (writes land at
  strictly increasing positions in front of the source pointer).
* The probability tables are function-valued fields; C stores them in
  `uint_least16_t`, but every value the code ever stores is below 2^16
  (updates keep probabilities in [0, 2048]), so no truncation is modelled.
* Fields of `struct frame` that C leaves uninitialized before first use
  (`lc`, `lp`, `pb`, `rc_limit`, `rc_code`, `rc_range`, `state`, `rep`,
  `probs`, and the local `dict_origin`) are given the value 0; the control
  layer never lets them be read before they are assigned.
* Loops are embedded as counted/fueled recursion.  The counts match the C trip
  counts exactly: the `do {} while (symbol < limit)` bittree loops run
  `log2 limit` times from `symbol = 1` since `symbol` doubles each pass, the
  direct-bits `do {} while (--limit > 0)` runs `limit` times, and the LZ77
  `do {} while (--len)` runs `len` times when `len >= 1` and 2^32 times when
  `len = 0` (unsigned wrap), which the embedding reproduces.
-/

set_option maxRecDepth 8192

namespace Unlzma2

/-- Status codes, mirroring `enum uncompress_status` in `uncompress_lzma2.h`. -/
inductive Status where
  | ok
  | noMemory
  | dataError
  | inLimit
  | outLimit
deriving DecidableEq

/-- `RC_TOP_VALUE = 1 << RC_TOP_BITS` with `RC_TOP_BITS = 24`. -/
def RC_TOP_VALUE : Nat := 0x1000000

/-- One more than the largest value of a 32-bit unsigned quantity. -/
def U32 : Nat := 0x100000000

/-- `struct lzma_len_dec`: `choice`, `choice2`, `low[16][8]`, `mid[16][8]`, `high[256]`. -/
structure LenDec where
  choice : Nat
  choice2 : Nat
  low : Nat → Nat → Nat
  mid : Nat → Nat → Nat
  high : Nat → Nat

/-- `struct lzma_probabilities`, with each array as a function-valued table. -/
structure Probs where
  is_match : Nat → Nat → Nat
  is_rep : Nat → Nat
  is_rep0 : Nat → Nat
  is_rep1 : Nat → Nat
  is_rep2 : Nat → Nat
  is_rep0_long : Nat → Nat → Nat
  dist_slot : Nat → Nat → Nat
  dist_special : Nat → Nat
  dist_align : Nat → Nat
  match_len_dec : LenDec
  rep_len_dec : LenDec
  literal : Nat → Nat → Nat

/-- Pointwise update of a one-index table. -/
def upd1 (t : Nat → Nat) (i v : Nat) : Nat → Nat :=
  fun a => if a = i then v else t a

/-- Pointwise update of a two-index table. -/
def upd2 (t : Nat → Nat → Nat) (i j v : Nat) : Nat → Nat → Nat :=
  fun a b => if a = i ∧ b = j then v else t a b

/-- `struct frame` (the output buffer is carried as the list of bytes written,
so `outcount` is `out.length`). -/
structure Frame where
  inbuf : List Nat
  incount : Nat
  inlimit : Nat
  out : List Nat
  rc_limit : Nat
  lc : Nat
  lp : Nat
  pb : Nat
  rc_code : Nat
  rc_range : Nat
  state : Nat
  rep0 : Nat
  rep1 : Nat
  rep2 : Nat
  rep3 : Nat
  probs : Probs

/-- A `lzma_len_dec` with every probability at the midpoint 1024. -/
def lenDecReset : LenDec :=
  { choice := 1024, choice2 := 1024,
    low := fun _ _ => 1024, mid := fun _ _ => 1024, high := fun _ => 1024 }

/-- All probabilities set to `RC_BIT_MODEL_TOTAL / 2 = 1024` (the memset-style
loop in `lzma_reset`). -/
def probsReset : Probs :=
  { is_match := fun _ _ => 1024, is_rep := fun _ => 1024, is_rep0 := fun _ => 1024,
    is_rep1 := fun _ => 1024, is_rep2 := fun _ => 1024,
    is_rep0_long := fun _ _ => 1024, dist_slot := fun _ _ => 1024,
    dist_special := fun _ => 1024, dist_align := fun _ => 1024,
    match_len_dec := lenDecReset, rep_len_dec := lenDecReset,
    literal := fun _ _ => 1024 }

/-- An all-zero probability table, standing in for the indeterminate contents of
the uninitialized `struct frame` (never read before `lzma_reset`). -/
def probsZero : Probs :=
  { is_match := fun _ _ => 0, is_rep := fun _ => 0, is_rep0 := fun _ => 0,
    is_rep1 := fun _ => 0, is_rep2 := fun _ => 0,
    is_rep0_long := fun _ _ => 0, dist_slot := fun _ _ => 0,
    dist_special := fun _ => 0, dist_align := fun _ => 0,
    match_len_dec := { choice := 0, choice2 := 0, low := fun _ _ => 0,
                       mid := fun _ _ => 0, high := fun _ => 0 },
    rep_len_dec := { choice := 0, choice2 := 0, low := fun _ _ => 0,
                     mid := fun _ _ => 0, high := fun _ => 0 },
    literal := fun _ _ => 0 }

/-- `rc_reset` (source lines 153-157): only `rc_range` is set. -/
def rc_reset (f : Frame) : Frame :=
  { f with rc_range := 0xFFFFFFFF }

/-- `lzma_reset` (source lines 159-175). -/
def lzma_reset (f : Frame) : Frame :=
  rc_reset { f with state := 0, rep0 := 0, rep1 := 0, rep2 := 0, rep3 := 0,
                    probs := probsReset }

/-- `read_unaligned_be32` of the four input bytes starting at index `i`. -/
def read_unaligned_be32 (l : List Nat) (i : Nat) : Nat :=
  (l.getD i 0 <<< 24) ||| (l.getD (i + 1) 0 <<< 16) |||
    (l.getD (i + 2) 0 <<< 8) ||| l.getD (i + 3) 0

/-- `rc_normalize` (source lines 185-197).  Returns the updated frame and the
C function's boolean result; note that `rc_range` is shifted before the input
window check, exactly as in the source. -/
def rc_normalize (f : Frame) : Frame × Bool :=
  if f.rc_range < RC_TOP_VALUE then
    let f1 : Frame := { f with rc_range := (f.rc_range <<< 8) % U32 }
    if f1.incount ≥ f1.rc_limit then (f1, false)
    else
      ({ f1 with
          rc_code := ((f1.rc_code <<< 8) ||| f1.inbuf.getD f1.incount 0) % U32,
          incount := f1.incount + 1 }, true)
  else (f, true)

/-- `rc_bit` (source lines 199-222) as a pure function of
`(rc_range, rc_code, *prob)`: result is `(bit, rc_range, rc_code, *prob)`
after the call. -/
def rc_bit (range code p : Nat) : Bool × Nat × Nat × Nat :=
  let bound := (range >>> 11) * p
  if code < bound then
    (false, bound, code, p + ((2048 - p) >>> 5))
  else
    (true, range - bound, code - bound, p - (p >>> 5))

/-- Modelled from the spec: the pseudocode block of section 4.1, "Decode a
binary symbol against probability `p`", written from the spec's own formulas
`bound = (range >> 11) * p`; bit 0: `range <- bound`,
`p <- p + ((2048 - p) >> 5)`; bit 1: `range <- range - bound`,
`code <- code - bound`, `p <- p - (p >> 5)`. -/
def rc_bit_spec (range code p : Nat) : Bool × Nat × Nat × Nat :=
  if code < (range >>> 11) * p then
    (false, (range >>> 11) * p, code, p + ((2048 - p) >>> 5))
  else
    (true, range - (range >>> 11) * p, code - (range >>> 11) * p, p - (p >>> 5))

/-- Access path for a single probability variable inside `Probs`. -/
structure PVar where
  get : Probs → Nat
  set : Probs → Nat → Probs

/-- Access path for a row of probability variables inside `Probs`
(the `probability_t *probs` pointers of the source). -/
structure PRef where
  get : Probs → Nat → Nat
  set : Probs → Nat → Nat → Probs

/-- `rc_bit(frame, prob)` acting on a single probability variable of the frame. -/
def rc_bit_one (f : Frame) (pv : PVar) : Frame × Bool :=
  let r := rc_bit f.rc_range f.rc_code (pv.get f.probs)
  ({ f with rc_range := r.2.1, rc_code := r.2.2.1, probs := pv.set f.probs r.2.2.2 },
   r.1)

/-- `rc_bit(frame, &probs[i])` for a row access path. -/
def rc_bit_at (f : Frame) (pr : PRef) (i : Nat) : Frame × Bool :=
  let r := rc_bit f.rc_range f.rc_code (pr.get f.probs i)
  ({ f with rc_range := r.2.1, rc_code := r.2.2.1, probs := pr.set f.probs i r.2.2.2 },
   r.1)

/-- The loop of `rc_bittree` (source lines 224-238), counted: each pass
renormalizes, decodes one bit against `probs[symbol]` and doubles `symbol`.
A second component of 0 encodes the `return 0` on failed renormalization. -/
def rc_bittree_iter : Nat → Frame → PRef → Nat → Frame × Nat
  | 0, f, _, symbol => (f, symbol)
  | n + 1, f, pr, symbol =>
    let fn := rc_normalize f
    if fn.2 = false then (fn.1, 0)
    else
      let fb := rc_bit_at fn.1 pr symbol
      rc_bittree_iter n fb.1 pr ((symbol <<< 1) ||| (if fb.2 then 1 else 0))

/-- `rc_bittree` (source lines 224-238).  The `do {} while (symbol < limit)`
loop starting from `symbol = 1` runs exactly `bits = log2 limit` times because
`symbol` doubles on every pass, so it is embedded with the explicit count. -/
def rc_bittree (f : Frame) (pr : PRef) (bits : Nat) : Frame × Nat :=
  rc_bittree_iter bits f pr 1

/-- Access path for a `struct lzma_len_dec` inside `Probs`
(`match_len_dec` or `rep_len_dec`). -/
structure LRef where
  get : Probs → LenDec
  set : Probs → LenDec → Probs

/-- The `l->choice` variable of a length decoder. -/
def lenChoice (lr : LRef) : PVar :=
  { get := fun pr => (lr.get pr).choice,
    set := fun pr v => lr.set pr { lr.get pr with choice := v } }

/-- The `l->choice2` variable of a length decoder. -/
def lenChoice2 (lr : LRef) : PVar :=
  { get := fun pr => (lr.get pr).choice2,
    set := fun pr v => lr.set pr { lr.get pr with choice2 := v } }

/-- The row `l->low[pos_state]` of a length decoder. -/
def lenLowRef (lr : LRef) (pos_state : Nat) : PRef :=
  { get := fun pr i => (lr.get pr).low pos_state i,
    set := fun pr i v =>
      lr.set pr { lr.get pr with low := upd2 (lr.get pr).low pos_state i v } }

/-- The row `l->mid[pos_state]` of a length decoder. -/
def lenMidRef (lr : LRef) (pos_state : Nat) : PRef :=
  { get := fun pr i => (lr.get pr).mid pos_state i,
    set := fun pr i v =>
      lr.set pr { lr.get pr with mid := upd2 (lr.get pr).mid pos_state i v } }

/-- The row `l->high` of a length decoder. -/
def lenHighRef (lr : LRef) : PRef :=
  { get := fun pr i => (lr.get pr).high i,
    set := fun pr i v =>
      lr.set pr { lr.get pr with high := upd1 (lr.get pr).high i v } }

/-- The `match_len_dec` sub-model. -/
def matchLenRef : LRef :=
  { get := fun pr => pr.match_len_dec,
    set := fun pr l => { pr with match_len_dec := l } }

/-- The `rep_len_dec` sub-model. -/
def repLenRef : LRef :=
  { get := fun pr => pr.rep_len_dec,
    set := fun pr l => { pr with rep_len_dec := l } }

/-- `lzma_len` (source lines 240-278).  Returns the updated frame and the
decoded length, 0 encoding the `return 0` on failed renormalization.
`MATCH_LEN_MIN = 2`, `LEN_LOW_SYMBOLS = LEN_MID_SYMBOLS = 8`,
`LEN_HIGH_SYMBOLS = 256`; the final value is `len + symbol - limit`. -/
def lzma_len (f : Frame) (lr : LRef) (pos_state : Nat) : Frame × Nat :=
  let fn := rc_normalize f
  if fn.2 = false then (fn.1, 0)
  else
    let fc := rc_bit_one fn.1 (lenChoice lr)
    if fc.2 = false then
      let r := rc_bittree fc.1 (lenLowRef lr pos_state) 3
      if r.2 = 0 then (r.1, 0) else (r.1, 2 + r.2 - 8)
    else
      let fn2 := rc_normalize fc.1
      if fn2.2 = false then (fn2.1, 0)
      else
        let fc2 := rc_bit_one fn2.1 (lenChoice2 lr)
        if fc2.2 = false then
          let r := rc_bittree fc2.1 (lenMidRef lr pos_state) 3
          if r.2 = 0 then (r.1, 0) else (r.1, 10 + r.2 - 8)
        else
          let r := rc_bittree fc2.1 (lenHighRef lr) 8
          if r.2 = 0 then (r.1, 0) else (r.1, 18 + r.2 - 256)

/-- The row `frame.probs.literal[row]`. -/
def litRef (row : Nat) : PRef :=
  { get := fun pr i => pr.literal row i,
    set := fun pr i v => { pr with literal := upd2 pr.literal row i v } }

/-- The row `frame.probs.dist_slot[cls]`. -/
def distSlotRef (cls : Nat) : PRef :=
  { get := fun pr i => pr.dist_slot cls i,
    set := fun pr i v => { pr with dist_slot := upd2 pr.dist_slot cls i v } }

/-- The pointer `&frame.probs.dist_special[rep0 - dist_slot - 1]` (source line
547).  The C offset can be -1 (for `dist_slot = 4`), but every access
`probs[i]` has `i >= 1`, so the index is carried as `rep0 + i - dist_slot - 1`
to stay within naturals. -/
def distSpecialRef (rep0 slot : Nat) : PRef :=
  { get := fun pr i => pr.dist_special (rep0 + i - slot - 1),
    set := fun pr i v =>
      { pr with dist_special := upd1 pr.dist_special (rep0 + i - slot - 1) v } }

/-- The row `frame.probs.dist_align`. -/
def distAlignRef : PRef :=
  { get := fun pr i => pr.dist_align i,
    set := fun pr i v => { pr with dist_align := upd1 pr.dist_align i v } }

/-- The variable `frame.probs.is_match[state][pos_state]` (source line 397). -/
def isMatchVar (state pos_state : Nat) : PVar :=
  { get := fun pr => pr.is_match state pos_state,
    set := fun pr v => { pr with is_match := upd2 pr.is_match state pos_state v } }

/-- The variable `frame.probs.is_rep[state]`. -/
def isRepVar (state : Nat) : PVar :=
  { get := fun pr => pr.is_rep state,
    set := fun pr v => { pr with is_rep := upd1 pr.is_rep state v } }

/-- The variable `frame.probs.is_rep0[state]`. -/
def isRep0Var (state : Nat) : PVar :=
  { get := fun pr => pr.is_rep0 state,
    set := fun pr v => { pr with is_rep0 := upd1 pr.is_rep0 state v } }

/-- The variable `frame.probs.is_rep1[state]`. -/
def isRep1Var (state : Nat) : PVar :=
  { get := fun pr => pr.is_rep1 state,
    set := fun pr v => { pr with is_rep1 := upd1 pr.is_rep1 state v } }

/-- The variable `frame.probs.is_rep2[state]`. -/
def isRep2Var (state : Nat) : PVar :=
  { get := fun pr => pr.is_rep2 state,
    set := fun pr v => { pr with is_rep2 := upd1 pr.is_rep2 state v } }

/-- The variable `frame.probs.is_rep0_long[state][pos_state]`. -/
def isRep0LongVar (state pos_state : Nat) : PVar :=
  { get := fun pr => pr.is_rep0_long state pos_state,
    set := fun pr v =>
      { pr with is_rep0_long := upd2 pr.is_rep0_long state pos_state v } }

/-- The matched-literal loop (source lines 418-435), counted for its 8 passes
(`symbol` starts at 1 and doubles until it reaches 0x100).  A second component
of 0 encodes the `goto rc_limit_reached` on failed renormalization. -/
def lzma_matched_literal : Nat → Frame → PRef → Nat → Nat → Nat → Frame × Nat
  | 0, f, _, symbol, _, _ => (f, symbol)
  | n + 1, f, pr, symbol, offset, match_byte =>
    let mb := match_byte <<< 1
    let match_bit := mb &&& offset
    let i := offset + match_bit + symbol
    let fn := rc_normalize f
    if fn.2 = false then (fn.1, 0)
    else
      let fb := rc_bit_at fn.1 pr i
      if fb.2 then
        lzma_matched_literal n fb.1 pr ((symbol <<< 1) ||| 1) (offset &&& match_bit) mb
      else
        lzma_matched_literal n fb.1 pr (symbol <<< 1)
          (offset &&& (0xFFFFFFFF ^^^ match_bit)) mb

/-- The literal state transition (source lines 439-445). -/
def lzma_state_literal (s : Nat) : Nat :=
  if s ≤ 3 then 0 else if s ≤ 9 then s - 3 else s - 6

/-- The direct-bits loop (source lines 551-564), counted: the
`do {} while (--limit > 0)` runs `limit` times (here `limit >= 2` at the only
call site, with `dist_slot >= 14`).  Returns (frame, rep0, ok); ok = false
encodes the `goto rc_limit_reached`.  Intermediate values of `rc_code` wrap
modulo 2^32, and the `frame.rc_code >> 31` test reads the 32-bit sign bit. -/
def rc_direct : Nat → Frame → Nat → Frame × Nat × Bool
  | 0, f, rep0 => (f, rep0, true)
  | n + 1, f, rep0 =>
    let fn := rc_normalize f
    if fn.2 = false then (fn.1, rep0, false)
    else
      let f1 := fn.1
      let range := f1.rc_range >>> 1
      let code := (f1.rc_code + U32 - range) % U32
      let rep0' := rep0 <<< 1
      if code >>> 31 ≠ 0 then
        rc_direct n { f1 with rc_range := range, rc_code := (code + range) % U32 } rep0'
      else
        rc_direct n { f1 with rc_range := range, rc_code := code } (rep0' ||| 1)

/-- The reverse bittree loop (source lines 570-588), counted: with
`limit = 1 << bits` and `mask` running 1, 2, 4, ... the
`do {} while ((mask <<= 1) < limit)` runs `bits` times.  Returns
(frame, rep0, ok); ok = false encodes the `goto rc_limit_reached`. -/
def rc_bittree_reverse : Nat → Frame → PRef → Nat → Nat → Nat → Frame × Nat × Bool
  | 0, f, _, _, _, rep0 => (f, rep0, true)
  | n + 1, f, pr, symbol, mask, rep0 =>
    let fn := rc_normalize f
    if fn.2 = false then (fn.1, rep0, false)
    else
      let fb := rc_bit_at fn.1 pr symbol
      if fb.2 then
        rc_bittree_reverse n fb.1 pr ((symbol <<< 1) ||| 1) (mask <<< 1) (rep0 + mask)
      else
        rc_bittree_reverse n fb.1 pr (symbol <<< 1) (mask <<< 1) rep0

/-- Result of one symbol decoded by the `lzma_main` loop body: continue the
loop, `goto rc_limit_reached`, or `goto finish` with a status (`RETURN`, or a
truncated LZ77 copy that set `ret`). -/
inductive Step where
  | cont : Frame → Step
  | rcLimit : Frame → Step
  | finish : Status → Frame → Step

/-- The frame carried by a `Step`. -/
def Step.frame : Step → Frame
  | .cont f => f
  | .rcLimit f => f
  | .finish _ f => f

/-- The byte-by-byte LZ77 copy: append `n` times the byte `dist + 1` positions
before the current end of the output. -/
def dict_copy : Nat → List Nat → Nat → List Nat
  | 0, out, _ => out
  | n + 1, out, dist => dict_copy n (out ++ [out.getD (out.length - dist - 1) 0]) dist

/-- The `dict_repeat` block (source lines 592-614): availability check
`outcount - dict_origin <= rep[0]` (else `DATA_ERROR`), truncation of `len` to
`out_limit - outcount` (setting `ret` to `DATA_ERROR` when `more_run`, else
`OUTLIMIT`), then the `do { *dst++ = *src++; } while (--len)` copy.  When the
truncated length is 0 the C loop decrements an unsigned 0 and runs 2^32 times;
the count reproduces that. -/
def dict_repeat (out_limit : Nat) (more_run : Bool) (dict_origin : Nat)
    (f : Frame) (len : Nat) : Step :=
  if f.out.length - dict_origin ≤ f.rep0 then .finish .dataError f
  else
    let trunc := out_limit - f.out.length < len
    let len' := if trunc then out_limit - f.out.length else len
    let ret : Status := if trunc then (if more_run then .dataError else .outLimit) else .ok
    let f' : Frame := { f with out := dict_copy (if len' = 0 then U32 else len') f.out f.rep0 }
    if ret = .ok then .cont f' else .finish ret f'

/-- The shared tail of the long-rep paths (source lines 497-504): set the
long-rep state, decode a length from `rep_len_dec` and run `dict_repeat`. -/
def lzma_rep_len_part (out_limit : Nat) (more_run : Bool) (dict_origin : Nat)
    (pos_state : Nat) (f : Frame) : Step :=
  let f1 : Frame := { f with state := if f.state < 7 then 8 else 11 }
  let r := lzma_len f1 repLenRef pos_state
  if r.2 = 0 then .rcLimit r.1
  else dict_repeat out_limit more_run dict_origin r.1 r.2

/-- The match path (source lines 508-590): state and rep shift, match length,
distance slot, and the three distance layouts, ending in `dict_repeat`. -/
def lzma_match_part (out_limit : Nat) (more_run : Bool) (dict_origin : Nat)
    (pos_state : Nat) (f : Frame) : Step :=
  let g1 : Frame := { f with state := (if f.state < 7 then 7 else 10),
                             rep3 := f.rep2, rep2 := f.rep1, rep1 := f.rep0 }
  let lr := lzma_len g1 matchLenRef pos_state
  if lr.2 = 0 then .rcLimit lr.1
  else
    let len := lr.2
    let ds := rc_bittree lr.1 (distSlotRef (if len < 6 then len - 2 else 3)) 6
    if ds.2 = 0 then .rcLimit ds.1
    else
      let slot := ds.2 - 64
      let g3 := ds.1
      if slot < 4 then
        dict_repeat out_limit more_run dict_origin { g3 with rep0 := slot } len
      else
        let limit := (slot >>> 1) - 1
        let r0 := 2 + (slot &&& 1)
        if slot < 14 then
          let r0 := r0 <<< limit
          let rv := rc_bittree_reverse limit g3 (distSpecialRef r0 slot) 1 1 r0
          if rv.2.2 = false then .rcLimit rv.1
          else dict_repeat out_limit more_run dict_origin { rv.1 with rep0 := rv.2.1 } len
        else
          let rd := rc_direct (limit - 4) g3 r0
          if rd.2.2 = false then .rcLimit rd.1
          else
            let rv := rc_bittree_reverse 4 rd.1 distAlignRef 1 1 (rd.2.1 <<< 4)
            if rv.2.2 = false then .rcLimit rv.1
            else dict_repeat out_limit more_run dict_origin { rv.1 with rep0 := rv.2.1 } len

/-- The literal path (source lines 399-446), entered after `is_match` decoded
to 0: literal sub-table selection, either the plain 8-bit bittree
(`state < LIT_STATES`) or the matched-literal walk guarded by the
`outcount - dict_origin <= rep[0]` availability check, then the byte append
and the literal state transition. -/
def lzma_literal_part (dict_origin : Nat) (f1 : Frame) : Step :=
  let prev_byte := if f1.out.length > dict_origin then f1.out.getD (f1.out.length - 1) 0 else 0
  let row := (prev_byte >>> (8 - f1.lc)) |||
    (((f1.out.length - dict_origin) &&& ((1 <<< f1.lp) - 1)) <<< f1.lc)
  if f1.state < 7 then
    let r := rc_bittree f1 (litRef row) 8
    if r.2 = 0 then .rcLimit r.1
    else .cont { r.1 with out := r.1.out ++ [r.2 % 256],
                          state := lzma_state_literal r.1.state }
  else if f1.out.length - dict_origin ≤ f1.rep0 then .finish .dataError f1
  else
    let match_byte := f1.out.getD (f1.out.length - f1.rep0 - 1) 0
    let r := lzma_matched_literal 8 f1 (litRef row) 1 0x100 match_byte
    if r.2 = 0 then .rcLimit r.1
    else .cont { r.1 with out := r.1.out ++ [r.2 % 256],
                          state := lzma_state_literal r.1.state }

/-- The short-rep tail (source lines 465-470): set the short-rep state and
run `dict_repeat` with length 1 and distance `rep[0]`. -/
def lzma_shortrep_part (out_limit : Nat) (more_run : Bool) (dict_origin : Nat)
    (frl1 : Frame) : Step :=
  let f7 : Frame := { frl1 with state := if frl1.state < 7 then 9 else 11 }
  dict_repeat out_limit more_run dict_origin f7 1

/-- The rep0 subtree (source lines 460-472): `is_rep0_long` chooses between
the short rep and a long rep 0. -/
def lzma_rep0_part (out_limit : Nat) (more_run : Bool) (dict_origin : Nat)
    (pos_state : Nat) (f5 : Frame) : Step :=
  let fn5 := rc_normalize f5
  if fn5.2 = false then .rcLimit fn5.1
  else
    let f6 := fn5.1
    let frl := rc_bit_one f6 (isRep0LongVar f6.state pos_state)
    if frl.2 = false then lzma_shortrep_part out_limit more_run dict_origin frl.1
    else lzma_rep_len_part out_limit more_run dict_origin pos_state frl.1

/-- The rep1/rep2/rep3 subtree (source lines 473-496): pick the index with
`is_rep1` / `is_rep2`, rotate the recent distances, and decode a length. -/
def lzma_repn_part (out_limit : Nat) (more_run : Bool) (dict_origin : Nat)
    (pos_state : Nat) (f5 : Frame) : Step :=
  let fn5 := rc_normalize f5
  if fn5.2 = false then .rcLimit fn5.1
  else
    let f6 := fn5.1
    let fr1 := rc_bit_one f6 (isRep1Var f6.state)
    if fr1.2 = false then
      let f7 := fr1.1
      lzma_rep_len_part out_limit more_run dict_origin pos_state
        { f7 with rep0 := f7.rep1, rep1 := f7.rep0 }
    else
      let f7 := fr1.1
      let fn7 := rc_normalize f7
      if fn7.2 = false then .rcLimit fn7.1
      else
        let f8 := fn7.1
        let fr2 := rc_bit_one f8 (isRep2Var f8.state)
        if fr2.2 = false then
          let f9 := fr2.1
          lzma_rep_len_part out_limit more_run dict_origin pos_state
            { f9 with rep0 := f9.rep2, rep2 := f9.rep1, rep1 := f9.rep0 }
        else
          let f9 := fr2.1
          lzma_rep_len_part out_limit more_run dict_origin pos_state
            { f9 with rep0 := f9.rep3, rep3 := f9.rep2,
                      rep2 := f9.rep1, rep1 := f9.rep0 }

/-- The rep path (source lines 453-507), entered after `is_rep` decoded to 1. -/
def lzma_rep_part (out_limit : Nat) (more_run : Bool) (dict_origin : Nat)
    (pos_state : Nat) (f3 : Frame) : Step :=
  let fn3 := rc_normalize f3
  if fn3.2 = false then .rcLimit fn3.1
  else
    let f4 := fn3.1
    let fr0 := rc_bit_one f4 (isRep0Var f4.state)
    if fr0.2 = false then lzma_rep0_part out_limit more_run dict_origin pos_state fr0.1
    else lzma_repn_part out_limit more_run dict_origin pos_state fr0.1

/-- One pass of the `lzma_main` loop body after the leading renormalize and the
`outcount >= out_limit` break test (source lines 396-615). -/
def lzma_step (out_limit : Nat) (more_run : Bool) (dict_origin : Nat)
    (f : Frame) : Step :=
  let pos_state := (f.out.length - dict_origin) &&& ((1 <<< f.pb) - 1)
  let fm := rc_bit_one f (isMatchVar f.state pos_state)
  if fm.2 = false then lzma_literal_part dict_origin fm.1
  else
    let fn := rc_normalize fm.1
    if fn.2 = false then .rcLimit fn.1
    else
      let fr := rc_bit_one fn.1 (isRepVar fn.1.state)
      if fr.2 then lzma_rep_part out_limit more_run dict_origin pos_state fr.1
      else lzma_match_part out_limit more_run dict_origin pos_state fr.1

/-- The `lzma_main` loop (source lines 389-616): renormalize, break when
`outcount >= out_limit`, otherwise decode one symbol and loop.  `fuel` bounds
the number of iterations; `.fuelOut` reports exhaustion. -/
inductive LoopRes where
  | fuelOut : Frame → LoopRes
  | normal : Frame → LoopRes
  | rcLimit : Frame → LoopRes
  | finish : Status → Frame → LoopRes

/-- The `lzma_main` loop itself. -/
def lzma_main : Nat → Nat → Bool → Nat → Frame → LoopRes
  | 0, _, _, _, f => .fuelOut f
  | fuel + 1, out_limit, more_run, dict_origin, f =>
    let fn := rc_normalize f
    if fn.2 = false then .rcLimit fn.1
    else if fn.1.out.length ≥ out_limit then .normal fn.1
    else
      match lzma_step out_limit more_run dict_origin fn.1 with
      | .cont f' => lzma_main fuel out_limit more_run dict_origin f'
      | .rcLimit f' => .rcLimit f'
      | .finish s f' => .finish s f'

/-- Division by repeated subtraction, as the property-byte loops do it
(source lines 356-361); returns (quotient, remainder).  The fuel `p` bounds
the number of subtractions. -/
def subdivGo : Nat → Nat → Nat → Nat × Nat
  | 0, p, _ => (0, p)
  | fuel + 1, p, d =>
    if 0 < d ∧ d ≤ p then
      let r := subdivGo fuel (p - d) d
      (r.1 + 1, r.2)
    else (0, p)

/-- Repeated subtraction of `d` from `p`: (quotient, remainder). -/
def subdiv (p d : Nat) : Nat × Nat :=
  subdivGo p p d

/-- The properties-byte handling (source lines 352-363): reject
`props > (4*5+4)*9 + 8 = 224`, then extract `pb` by repeated subtraction of
45, `lp` by repeated subtraction of 9, and `lc` as the remainder.
Returns `(lc, lp, pb)`. -/
def parse_props (props : Nat) : Option (Nat × Nat × Nat) :=
  if (4 * 5 + 4) * 9 + 8 < props then none
  else
    let d1 := subdiv props (5 * 9)
    let d2 := subdiv d1.2 9
    some (d2.2, d2.1, d1.1)

/-- The `out_limit` / `more_run` computation (source lines 380-386):
`out_limit = *outsizep; more_run = 0; if (out_limit - outcount > uncompressed)
{ out_limit = outcount + uncompressed; more_run = 1; }`. -/
def out_limit_more_run (outsize outcount uncompressed : Nat) : Nat × Bool :=
  if outsize - outcount > uncompressed then (outcount + uncompressed, true)
  else (outsize, false)

/-- The LZMA chunk header handling (source lines 321-386): properties flag
check, 4 header bytes, optional properties byte, optional `lzma_reset`,
`rc_limit`, the `compressed >= 5` and input checks, the 5 range-coder
initialization bytes (byte 0 skipped, bytes 1..4 big-endian into `rc_code`),
and the `out_limit` / `more_run` computation.  On success returns the new
`need_properties`, the frame ready for `lzma_main`, `out_limit` and
`more_run`; on failure the status and the frame at the `RETURN`. -/
def lzma_chunk_header (np : Bool) (outsize : Nat) (f : Frame) (control : Nat) :
    Except (Status × Frame) (Bool × Frame × Nat × Bool) :=
  if control < 0xC0 ∧ np = true then .error (.dataError, f)
  else
    let np' := if 0xC0 ≤ control then false else np
    if f.inlimit - f.incount < 4 then .error (.inLimit, f)
    else
      let p0 := f.inbuf.getD f.incount 0
      let p1 := f.inbuf.getD (f.incount + 1) 0
      let p2 := f.inbuf.getD (f.incount + 2) 0
      let p3 := f.inbuf.getD (f.incount + 3) 0
      let f1 : Frame := { f with incount := f.incount + 4 }
      let uncompressed := (((control &&& 0x1F) <<< 16) ||| ((p0 <<< 8) ||| p1)) + 1
      let compressed := ((p2 <<< 8) ||| p3) + 1
      let props_step : Except (Status × Frame) Frame :=
        if 0xC0 ≤ control then
          if f1.incount ≥ f1.inlimit then .error (.inLimit, f1)
          else
            let props := f1.inbuf.getD f1.incount 0
            let f2 : Frame := { f1 with incount := f1.incount + 1 }
            match parse_props props with
            | none => .error (.dataError, f2)
            | some lcLpPb =>
              .ok { f2 with lc := lcLpPb.1, lp := lcLpPb.2.1, pb := lcLpPb.2.2 }
        else .ok f1
      match props_step with
      | .error e => .error e
      | .ok f2 =>
        let f3 := if 0xA0 ≤ control then lzma_reset f2 else f2
        let rcl := f3.incount + compressed
        let f4 : Frame := { f3 with rc_limit := if rcl > f3.inlimit then f3.inlimit else rcl }
        if compressed < 5 then .error (.dataError, f4)
        else if f4.inlimit - f4.incount < 5 then .error (.inLimit, f4)
        else
          let f5 : Frame := { f4 with
            rc_code := read_unaligned_be32 f4.inbuf (f4.incount + 1),
            incount := f4.incount + 5 }
          let olmr := out_limit_more_run outsize f5.out.length uncompressed
          .ok (np', f5, olmr.1, olmr.2)

/-- Per-call state outside `struct frame`: the flags, `dict_origin` and the
original `*outsizep` (which the source only writes at `finish`). -/
structure St where
  frame : Frame
  need_properties : Bool
  dict_reset_done : Bool
  dict_origin : Nat
  outsize : Nat

/-- Result of processing one chunk: final return, continue with the next
control byte, or inner-loop fuel exhaustion. -/
inductive ChunkRes where
  | done : Status → Frame → ChunkRes
  | cont : St → ChunkRes
  | fuelOut : Frame → ChunkRes

/-- An LZMA chunk (source lines 321-620): header, `lzma_main`, the
`rc_limit_reached` label (lines 650-653) and the final
`incount < rc_limit` check (lines 618-619). -/
def run_lzma_chunk (fuel : Nat) (st : St) (f : Frame) (control : Nat) : ChunkRes :=
  match lzma_chunk_header st.need_properties st.outsize f control with
  | .error e => .done e.1 e.2
  | .ok r =>
    let np := r.1
    let ol := r.2.2.1
    let mr := r.2.2.2
    match lzma_main fuel ol mr st.dict_origin r.2.1 with
    | .fuelOut f2 => .fuelOut f2
    | .rcLimit f2 =>
      .done (if f2.incount ≥ f2.inlimit then .inLimit else .dataError) f2
    | .finish s f2 => .done s f2
    | .normal f2 =>
      if f2.incount < f2.rc_limit then .done .dataError f2
      else .cont { st with frame := f2, need_properties := np }

/-- An uncompressed chunk (source lines 623-647): two big-endian size bytes,
clamp to the remaining input (`ret = INLIMIT`), clamp to the remaining output
(`ret = OUTLIMIT`), copy, and `goto finish` when `ret != OK`. -/
def run_uncompressed_chunk (st : St) (f : Frame) : ChunkRes :=
  if f.inlimit - f.incount < 2 then .done .inLimit f
  else
    let p0 := f.inbuf.getD f.incount 0
    let p1 := f.inbuf.getD (f.incount + 1) 0
    let dataStart := f.incount + 2
    let f1 : Frame := { f with incount := f.incount + 2 }
    let cl0 := (p0 <<< 8) + p1 + 1
    let clr1 := if f1.inlimit - f1.incount < cl0
                then (f1.inlimit - f1.incount, Status.inLimit) else (cl0, Status.ok)
    let clr2 := if st.outsize - f1.out.length < clr1.1
                then (st.outsize - f1.out.length, Status.outLimit) else clr1
    let copy_len := clr2.1
    let f2 : Frame := { f1 with
      incount := f1.incount + copy_len,
      out := f1.out ++ (List.range copy_len).map (fun i => f1.inbuf.getD (dataStart + i) 0) }
    if clr2.2 = Status.ok then .cont { st with frame := f2 } else .done clr2.2 f2

/-- One iteration of the outer control loop (source lines 303-648): read a
control byte, handle the end marker, the dictionary-reset controls and the
`dict_reset_done` guard, then dispatch on the chunk kind. -/
def processChunk (fuel : Nat) (st : St) : ChunkRes :=
  let f := st.frame
  if f.incount ≥ f.inlimit then .done .inLimit f
  else
    let control := f.inbuf.getD f.incount 0
    let f1 : Frame := { f with incount := f.incount + 1 }
    if control = 0 then .done .ok f1
    else if 0xE0 ≤ control ∨ control = 1 then
      let st' : St := { st with need_properties := true, dict_origin := f1.out.length,
                                dict_reset_done := true }
      if 0x80 ≤ control then run_lzma_chunk fuel st' f1 control
      else if 2 < control then .done .dataError f1
      else run_uncompressed_chunk st' f1
    else if st.dict_reset_done = false then .done .dataError f1
    else if 0x80 ≤ control then run_lzma_chunk fuel st f1 control
    else if 2 < control then .done .dataError f1
    else run_uncompressed_chunk st f1

/-- The outer `for (;;)` loop of `uncompress_lzma2`. -/
def uncompressLoop : Nat → St → Option (Status × Frame)
  | 0, _ => none
  | fuel + 1, st =>
    match processChunk (fuel + 1) st with
    | .done s f => some (s, f)
    | .fuelOut _ => none
    | .cont st' => uncompressLoop fuel st'

/-- The initial frame (source lines 292-295); fields C leaves uninitialized
are 0 here (see the header comment). -/
def initFrame (inbuf : List Nat) (insize : Nat) : Frame :=
  { inbuf := inbuf, incount := 0, inlimit := insize, out := [],
    rc_limit := 0, lc := 0, lp := 0, pb := 0, rc_code := 0, rc_range := 0,
    state := 0, rep0 := 0, rep1 := 0, rep2 := 0, rep3 := 0, probs := probsZero }

/-- The initial per-call state (source lines 284-295). -/
def initSt (inbuf : List Nat) (insize outsize : Nat) : St :=
  { frame := initFrame inbuf insize, need_properties := false,
    dict_reset_done := false, dict_origin := 0, outsize := outsize }

/-- `uncompress_lzma2` (source lines 280-658).  Takes the input bytes and the
values of `*insizep` and `*outsizep` on entry; returns the status, the final
`*insizep` and `*outsizep` (lines 654-656), and the bytes written to the
output buffer.  `none` reports fuel exhaustion of the embedding only. -/
def uncompress_lzma2 (fuel : Nat) (inbuf : List Nat) (insize outsize : Nat) :
    Option (Status × Nat × Nat × List Nat) :=
  match uncompressLoop fuel (initSt inbuf insize outsize) with
  | none => none
  | some (s, f) => some (s, f.incount, f.out.length, f.out)

/-- The frame carried by a `LoopRes`. -/
def LoopRes.frame : LoopRes → Frame
  | .fuelOut f => f
  | .normal f => f
  | .rcLimit f => f
  | .finish _ f => f

/-- Whether a `ChunkRes` continues with the next control byte. -/
def ChunkRes.isCont : ChunkRes → Bool
  | .cont _ => true
  | _ => false

/-- The continuation state of a `ChunkRes` (or `d` when it is not `.cont`). -/
def ChunkRes.contSt (r : ChunkRes) (d : St) : St :=
  match r with
  | .cont st => st
  | _ => d

/-- The frame of an `.ok` header result (or `d` otherwise). -/
def headerFrame (r : Except (Status × Frame) (Bool × Frame × Nat × Bool)) (d : Frame) :
    Frame :=
  match r with
  | .ok x => x.2.1
  | .error _ => d

/-- Whether a header result is `.ok`. -/
def headerIsOk (r : Except (Status × Frame) (Bool × Frame × Nat × Bool)) : Bool :=
  match r with
  | .ok _ => true
  | .error _ => false

/-- A small frame with mid-reset probabilities, used to instantiate theorems
with hypotheses at concrete states. -/
def mkFrame (out : List Nat) (state rep0 : Nat) : Frame :=
  { inbuf := [], incount := 0, inlimit := 0, out := out,
    rc_limit := 0, lc := 0, lp := 0, pb := 0, rc_code := 0,
    rc_range := 0xFFFFFFFF, state := state, rep0 := rep0,
    rep1 := 0, rep2 := 0, rep3 := 0, probs := probsReset }

/-- Scenario S2 of the spec: `01 00 04 'h' 'e' 'l' 'l' 'o' 00`. -/
def helloIn : List Nat := [0x01, 0x00, 0x04, 0x68, 0x65, 0x6C, 0x6C, 0x6F, 0x00]

/-- A two-chunk stream: an LZMA chunk (control 0xE0, `uncompressed` 1,
`compressed` 6, properties 0, range-coder init bytes 00 00 00 00 00, one
further compressed byte 00) that decodes to the single byte 0, followed by an
LZMA chunk without reset (control 0x80, `uncompressed` 1, `compressed` 5) whose
five range-coder initialization bytes are 01 02 03 04 05. -/
def c3In : List Nat := [0xE0, 0, 0, 0, 5, 0, 0, 0, 0, 0, 0, 0,
                        0x80, 0, 0, 0, 4, 1, 2, 3, 4, 5]

/-- An LZMA chunk (control 0xE0) declaring `uncompressed` 2 and `compressed` 8,
properties 0, range-coder init bytes 00 00 42 00 00: it decodes one literal 0
and then a match of length 2, which overruns an output buffer of size 2 by one
byte mid-copy. -/
def c4In : List Nat := [0xE0, 0, 1, 0, 7, 0, 0, 0, 66, 0, 0, 0, 0, 0]

/-- An LZMA chunk (control 0xE0) declaring `uncompressed` 1 and `compressed` 5:
its five all-zero initialization bytes are the whole compressed stream, and the
eighth literal bit needs a renormalization byte past `rc_limit`. -/
def c5In : List Nat := [0xE0, 0, 0, 0, 4, 0, 0, 0, 0, 0, 0]

/-- Fields untouched by the range-coder primitives, and the input-cursor
bound they maintain: `incount` never moves backwards and never passes
`rc_limit` (it only advances from below it). -/
def RcPres (f f' : Frame) : Prop :=
  f'.inbuf = f.inbuf ∧ f'.inlimit = f.inlimit ∧ f'.rc_limit = f.rc_limit ∧
  f'.out = f.out ∧ f.incount ≤ f'.incount ∧ f'.incount ≤ max f.incount f.rc_limit

/-- Frame-level summary of one decoding step: input-side fields preserved,
`incount` advances at most to `rc_limit`, and the output grows but stays
within `out_limit`. -/
def StepOkF (ol : Nat) (f g : Frame) : Prop :=
  g.inbuf = f.inbuf ∧ g.inlimit = f.inlimit ∧ g.rc_limit = f.rc_limit ∧
  f.incount ≤ g.incount ∧ g.incount ≤ max f.incount f.rc_limit ∧
  f.out.length ≤ g.out.length ∧ g.out.length ≤ ol

/-- Invariant of the per-call state across control-loop iterations: the input
limit and the caller's output size are fixed, and the cursors stay within
them. -/
def StInv (N M : Nat) (st : St) : Prop :=
  st.frame.inlimit = N ∧ st.outsize = M ∧ st.frame.incount ≤ N ∧
  st.frame.rc_limit ≤ N ∧ st.frame.out.length ≤ M

/-- What one chunk iteration guarantees: a final return keeps the cursors in
bounds, and a continuation re-establishes the state invariant. -/
def ChunkInv (N M : Nat) (r : ChunkRes) : Prop :=
  match r with
  | .done _ f' => f'.incount ≤ N ∧ f'.out.length ≤ M
  | .cont st' => StInv N M st'
  | .fuelOut _ => True

/-- The `out_limit` of an `.ok` header result (or 0 otherwise). -/
def headerOl (r : Except (Status × Frame) (Bool × Frame × Nat × Bool)) : Nat :=
  match r with
  | .ok x => x.2.2.1
  | .error _ => 0

/-- The `more_run` of an `.ok` header result (or `false` otherwise). -/
def headerMr (r : Except (Status × Frame) (Bool × Frame × Nat × Bool)) : Bool :=
  match r with
  | .ok x => x.2.2.2
  | .error _ => false

/-- Whether a `LoopRes` is the `rc_limit_reached` exit. -/
def LoopRes.isRcLimit : LoopRes → Bool
  | .rcLimit _ => true
  | _ => false

/-- The `need_properties` of an `.ok` header result (or `false` otherwise). -/
def headerNp (r : Except (Status × Frame) (Bool × Frame × Nat × Bool)) : Bool :=
  match r with
  | .ok x => x.1
  | .error _ => false

/-- The chunk-layer state just before the LZMA chunk of `c5In` is decoded. -/
def c5St : St :=
  { frame := initFrame c5In 11, need_properties := true, dict_reset_done := true,
    dict_origin := 0, outsize := 4 }

/-- The frame of `c5St` after the control byte is consumed. -/
def c5F1 : Frame := { initFrame c5In 11 with incount := 1 }

/-- The header result of the `c5In` LZMA chunk. -/
def c5H : Except (Status × Frame) (Bool × Frame × Nat × Bool) :=
  lzma_chunk_header c5St.need_properties c5St.outsize c5F1 224

/-- A frame one control byte into an LZMA chunk whose `compressed` field
decodes to 4. -/
def c9Frame : Frame := { initFrame [0x80, 0, 0, 0, 3] 5 with incount := 1 }

theorem rcPres_refl (f : Frame) : RcPres f f :=
  ⟨rfl, rfl, rfl, rfl, Nat.le_refl _, Nat.le_max_left _ _⟩

theorem rcPres_trans {f g h : Frame} (h1 : RcPres f g) (h2 : RcPres g h) :
    RcPres f h := by
  obtain ⟨e1, e2, e3, e4, l1, l2⟩ := h1
  obtain ⟨e1', e2', e3', e4', l1', l2'⟩ := h2
  refine ⟨e1'.trans e1, e2'.trans e2, e3'.trans e3, e4'.trans e4, Nat.le_trans l1 l1', ?_⟩
  rw [e3] at l2'
  omega

theorem rc_normalize_rcPres (f : Frame) : RcPres f (rc_normalize f).1 := by
  simp only [rc_normalize]
  split
  · split
    · exact ⟨rfl, rfl, rfl, rfl, Nat.le_refl _, Nat.le_max_left _ _⟩
    · rename_i h2
      refine ⟨rfl, rfl, rfl, rfl, Nat.le_succ _, ?_⟩
      simp only [ge_iff_le, not_le] at h2
      simp only at h2 ⊢
      omega
  · exact rcPres_refl f

theorem rc_bit_one_rcPres (f : Frame) (pv : PVar) : RcPres f (rc_bit_one f pv).1 :=
  ⟨rfl, rfl, rfl, rfl, Nat.le_refl _, Nat.le_max_left _ _⟩

theorem rc_bit_at_rcPres (f : Frame) (pr : PRef) (i : Nat) :
    RcPres f (rc_bit_at f pr i).1 :=
  ⟨rfl, rfl, rfl, rfl, Nat.le_refl _, Nat.le_max_left _ _⟩

theorem rc_bittree_iter_rcPres :
    ∀ (n : Nat) (f : Frame) (pr : PRef) (s : Nat),
      RcPres f (rc_bittree_iter n f pr s).1 := by
  intro n
  induction n with
  | zero => intro f pr s; exact rcPres_refl f
  | succ n ih =>
    intro f pr s
    simp only [rc_bittree_iter]
    split
    · exact rc_normalize_rcPres f
    · exact rcPres_trans (rc_normalize_rcPres f)
        (rcPres_trans (rc_bit_at_rcPres _ _ _) (ih _ _ _))

theorem rc_bittree_rcPres (f : Frame) (pr : PRef) (bits : Nat) :
    RcPres f (rc_bittree f pr bits).1 :=
  rc_bittree_iter_rcPres bits f pr 1

/-- For even numbers, a bitwise or with 1 is an increment. -/
theorem two_mul_or_one (s : Nat) : (2 * s) ||| 1 = 2 * s + 1 := by
  have h := Nat.lor_bit false s true 0
  simp [Nat.bit] at h
  simpa [Nat.mul_comm] using h

/-- The doubled symbol with the decoded bit folded in is at least the doubled
symbol. -/
theorem shiftLeft_or_bound (s : Nat) (b : Bool) :
    2 * s ≤ (s <<< 1) ||| (if b then 1 else 0) := by
  have he : s <<< 1 = 2 * s := by
    simp [Nat.shiftLeft_eq, Nat.mul_comm]
  cases b
  · simp [he]
  · simp only [he, if_pos, two_mul_or_one]
    omega

/-- A bittree result is the failure marker 0 or at least `2^n` times the
starting symbol (each pass at least doubles the symbol). -/
theorem rc_bittree_iter_sym :
    ∀ (n : Nat) (f : Frame) (pr : PRef) (s : Nat),
      (rc_bittree_iter n f pr s).2 = 0 ∨ 2 ^ n * s ≤ (rc_bittree_iter n f pr s).2 := by
  intro n
  induction n with
  | zero => intro f pr s; right; simp [rc_bittree_iter]
  | succ n ih =>
    intro f pr s
    simp only [rc_bittree_iter]
    split
    · left; rfl
    · rcases ih (rc_bit_at (rc_normalize f).1 pr s).1 pr
        ((s <<< 1) ||| (if (rc_bit_at (rc_normalize f).1 pr s).2 then 1 else 0)) with h | h
      · left; exact h
      · right
        refine Nat.le_trans ?_ h
        have hs := shiftLeft_or_bound s (rc_bit_at (rc_normalize f).1 pr s).2
        calc 2 ^ (n + 1) * s = 2 ^ n * (2 * s) := by ring
          _ ≤ _ := Nat.mul_le_mul_left _ hs

/-- The `rc_bittree` result is 0 or at least its width `2^bits`. -/
theorem rc_bittree_sym (f : Frame) (pr : PRef) (bits : Nat) :
    (rc_bittree f pr bits).2 = 0 ∨ 2 ^ bits ≤ (rc_bittree f pr bits).2 := by
  have h := rc_bittree_iter_sym bits f pr 1
  simpa [rc_bittree] using h

theorem lzma_matched_literal_rcPres :
    ∀ (n : Nat) (f : Frame) (pr : PRef) (s off mb : Nat),
      RcPres f (lzma_matched_literal n f pr s off mb).1 := by
  intro n
  induction n with
  | zero => intro f pr s off mb; exact rcPres_refl f
  | succ n ih =>
    intro f pr s off mb
    simp only [lzma_matched_literal]
    split
    · exact rc_normalize_rcPres f
    · split
      · exact rcPres_trans (rc_normalize_rcPres f)
          (rcPres_trans (rc_bit_at_rcPres _ _ _) (ih _ _ _ _ _))
      · exact rcPres_trans (rc_normalize_rcPres f)
          (rcPres_trans (rc_bit_at_rcPres _ _ _) (ih _ _ _ _ _))

theorem rc_direct_rcPres :
    ∀ (n : Nat) (f : Frame) (r : Nat), RcPres f (rc_direct n f r).1 := by
  intro n
  induction n with
  | zero => intro f r; exact rcPres_refl f
  | succ n ih =>
    intro f r
    simp only [rc_direct]
    split
    · exact rc_normalize_rcPres f
    · split
      · exact rcPres_trans (rc_normalize_rcPres f)
          (rcPres_trans ⟨rfl, rfl, rfl, rfl, Nat.le_refl _, Nat.le_max_left _ _⟩ (ih _ _))
      · exact rcPres_trans (rc_normalize_rcPres f)
          (rcPres_trans ⟨rfl, rfl, rfl, rfl, Nat.le_refl _, Nat.le_max_left _ _⟩ (ih _ _))

theorem rc_bittree_reverse_rcPres :
    ∀ (n : Nat) (f : Frame) (pr : PRef) (s m r : Nat),
      RcPres f (rc_bittree_reverse n f pr s m r).1 := by
  intro n
  induction n with
  | zero => intro f pr s m r; exact rcPres_refl f
  | succ n ih =>
    intro f pr s m r
    simp only [rc_bittree_reverse]
    split
    · exact rc_normalize_rcPres f
    · split
      · exact rcPres_trans (rc_normalize_rcPres f)
          (rcPres_trans (rc_bit_at_rcPres _ _ _) (ih _ _ _ _ _))
      · exact rcPres_trans (rc_normalize_rcPres f)
          (rcPres_trans (rc_bit_at_rcPres _ _ _) (ih _ _ _ _ _))

theorem lzma_len_rcPres (f : Frame) (lr : LRef) (ps : Nat) :
    RcPres f (lzma_len f lr ps).1 := by
  simp only [lzma_len]
  split
  · exact rc_normalize_rcPres f
  · split
    · split
      · exact rcPres_trans (rc_normalize_rcPres f)
          (rcPres_trans (rc_bit_one_rcPres _ _) (rc_bittree_rcPres _ _ _))
      · exact rcPres_trans (rc_normalize_rcPres f)
          (rcPres_trans (rc_bit_one_rcPres _ _) (rc_bittree_rcPres _ _ _))
    · split
      · exact rcPres_trans (rc_normalize_rcPres f)
          (rcPres_trans (rc_bit_one_rcPres _ _) (rc_normalize_rcPres _))
      · split
        · split
          · exact rcPres_trans (rc_normalize_rcPres f)
              (rcPres_trans (rc_bit_one_rcPres _ _)
                (rcPres_trans (rc_normalize_rcPres _)
                  (rcPres_trans (rc_bit_one_rcPres _ _) (rc_bittree_rcPres _ _ _))))
          · exact rcPres_trans (rc_normalize_rcPres f)
              (rcPres_trans (rc_bit_one_rcPres _ _)
                (rcPres_trans (rc_normalize_rcPres _)
                  (rcPres_trans (rc_bit_one_rcPres _ _) (rc_bittree_rcPres _ _ _))))
        · split
          · exact rcPres_trans (rc_normalize_rcPres f)
              (rcPres_trans (rc_bit_one_rcPres _ _)
                (rcPres_trans (rc_normalize_rcPres _)
                  (rcPres_trans (rc_bit_one_rcPres _ _) (rc_bittree_rcPres _ _ _))))
          · exact rcPres_trans (rc_normalize_rcPres f)
              (rcPres_trans (rc_bit_one_rcPres _ _)
                (rcPres_trans (rc_normalize_rcPres _)
                  (rcPres_trans (rc_bit_one_rcPres _ _) (rc_bittree_rcPres _ _ _))))

/-- A decoded length is the failure marker 0 or at least `MATCH_LEN_MIN = 2`. -/
theorem lzma_len_pos (f : Frame) (lr : LRef) (ps : Nat) :
    (lzma_len f lr ps).2 = 0 ∨ 2 ≤ (lzma_len f lr ps).2 := by
  simp only [lzma_len]
  split
  · left; rfl
  · split
    · have h := rc_bittree_sym (rc_bit_one (rc_normalize f).1 (lenChoice lr)).1
        (lenLowRef lr ps) 3
      split
      · left; rfl
      · rename_i hne
        right
        simp only [Nat.pow_succ, Nat.pow_zero] at h
        omega
    · split
      · left; rfl
      · split
        · have h := rc_bittree_sym (rc_bit_one (rc_normalize (rc_bit_one
            (rc_normalize f).1 (lenChoice lr)).1).1 (lenChoice2 lr)).1
            (lenMidRef lr ps) 3
          split
          · left; rfl
          · rename_i hne
            right
            simp only [Nat.pow_succ, Nat.pow_zero] at h
            omega
        · have h := rc_bittree_sym (rc_bit_one (rc_normalize (rc_bit_one
            (rc_normalize f).1 (lenChoice lr)).1).1 (lenChoice2 lr)).1
            (lenHighRef lr) 8
          split
          · left; rfl
          · rename_i hne
            right
            simp only [Nat.pow_succ, Nat.pow_zero] at h
            omega

theorem dict_copy_length :
    ∀ (n : Nat) (out : List Nat) (dist : Nat),
      (dict_copy n out dist).length = out.length + n := by
  intro n
  induction n with
  | zero => intro out dist; simp [dict_copy]
  | succ n ih =>
    intro out dist
    simp only [dict_copy]
    rw [ih]
    simp
    omega

theorem dict_copy_stable :
    ∀ (n : Nat) (out : List Nat) (dist i : Nat), i < out.length →
      (dict_copy n out dist).getD i 0 = out.getD i 0 := by
  intro n
  induction n with
  | zero => intro out dist i _; rfl
  | succ n ih =>
    intro out dist i hi
    simp only [dict_copy]
    rw [ih _ _ _ (by simp; omega)]
    exact List.getD_append _ _ _ _ hi

/-- Every byte appended by `dict_copy` equals the byte `dist + 1` positions
before it in the final buffer. -/
theorem dict_copy_reads :
    ∀ (n : Nat) (out : List Nat) (dist : Nat), dist < out.length →
      ∀ k, k < n →
        (dict_copy n out dist).getD (out.length + k) 0
          = (dict_copy n out dist).getD (out.length + k - dist - 1) 0 := by
  intro n
  induction n with
  | zero => intro out dist _ k hk; omega
  | succ n ih =>
    intro out dist hd k hk
    simp only [dict_copy]
    set b := out.getD (out.length - dist - 1) 0 with hb
    have hl : (out ++ [b]).length = out.length + 1 := by simp
    match k with
    | 0 =>
      have hidx : out.length - dist - 1 < out.length := by omega
      rw [dict_copy_stable n (out ++ [b]) dist (out.length + 0) (by simp),
          dict_copy_stable n (out ++ [b]) dist (out.length + 0 - dist - 1) (by simp; omega)]
      simp only [Nat.add_zero]
      rw [List.getD_append_right _ _ _ _ (Nat.le_refl _), List.getD_append _ _ _ _ hidx]
      simp [hb]
    | k' + 1 =>
      rw [show out.length + (k' + 1) = (out ++ [b]).length + k' by simp; omega]
      exact ih (out ++ [b]) dist (by simp; omega) k' (by omega)

theorem stepOkF_of_rcPres {ol : Nat} {f g : Frame} (h : RcPres f g)
    (hL : f.out.length ≤ ol) : StepOkF ol f g := by
  obtain ⟨e1, e2, e3, e4, l1, l2⟩ := h
  exact ⟨e1, e2, e3, l1, l2, by rw [e4], by rw [e4]; exact hL⟩

theorem stepOkF_comp {ol : Nat} {f g r : Frame} (h : RcPres f g)
    (h2 : StepOkF ol g r) : StepOkF ol f r := by
  obtain ⟨e1, e2, e3, e4, l1, l2⟩ := h
  obtain ⟨e1', e2', e3', l1', l2', m1, m2⟩ := h2
  refine ⟨e1'.trans e1, e2'.trans e2, e3'.trans e3, Nat.le_trans l1 l1', ?_, ?_, m2⟩
  · rw [e3] at l2'; omega
  · rw [e4] at m1; exact m1

theorem stepOkF_trans {ol : Nat} {f g r : Frame} (h1 : StepOkF ol f g)
    (h2 : StepOkF ol g r) : StepOkF ol f r := by
  obtain ⟨e1, e2, e3, l1, l2, m1, m2⟩ := h1
  obtain ⟨e1', e2', e3', l1', l2', m1', m2'⟩ := h2
  refine ⟨e1'.trans e1, e2'.trans e2, e3'.trans e3, Nat.le_trans l1 l1', ?_,
    Nat.le_trans m1 m1', m2'⟩
  rw [e3] at l2'; omega

theorem stepOkF_of_out (ol : Nat) (f : Frame) (out' : List Nat)
    (h1 : f.out.length ≤ out'.length) (h2 : out'.length ≤ ol) :
    StepOkF ol f { f with out := out' } :=
  ⟨rfl, rfl, rfl, Nat.le_refl _, Nat.le_max_left _ _, h1, h2⟩

theorem dict_repeat_stepOkF (ol : Nat) (mr : Bool) (dor : Nat) (f : Frame)
    (len : Nat) (hL : f.out.length < ol) (hlen : 1 ≤ len) :
    StepOkF ol f (dict_repeat ol mr dor f len).frame := by
  simp only [dict_repeat]
  split
  · exact ⟨rfl, rfl, rfl, Nat.le_refl _, Nat.le_max_left _ _, Nat.le_refl _, by
      simp only [Step.frame]; omega⟩
  · have h0 : (if ol - f.out.length < len then ol - f.out.length else len) ≠ 0 := by
      split <;> omega
    rw [if_neg h0]
    split
    · split
      · simp only [Step.frame]
        exact stepOkF_of_out ol f _ (by rw [dict_copy_length]; omega)
          (by rw [dict_copy_length]; omega)
      · simp only [Step.frame]
        exact stepOkF_of_out ol f _ (by rw [dict_copy_length]; omega)
          (by rw [dict_copy_length]; omega)
    · rename_i hnt
      split
      · simp only [Step.frame]
        exact stepOkF_of_out ol f _ (by rw [dict_copy_length]; omega)
          (by rw [dict_copy_length]; omega)
      · simp only [Step.frame]
        exact stepOkF_of_out ol f _ (by rw [dict_copy_length]; omega)
          (by rw [dict_copy_length]; omega)

theorem rcPres_upd {f g : Frame} (h : RcPres f g) {g' : Frame}
    (e1 : g'.inbuf = g.inbuf) (e2 : g'.inlimit = g.inlimit)
    (e3 : g'.rc_limit = g.rc_limit) (e4 : g'.out = g.out)
    (e5 : g'.incount = g.incount) : RcPres f g' := by
  obtain ⟨a1, a2, a3, a4, a5, a6⟩ := h
  exact ⟨e1.trans a1, e2.trans a2, e3.trans a3, e4.trans a4,
    by omega, by omega⟩

theorem lzma_rep_len_part_ok (ol : Nat) (mr : Bool) (dor ps : Nat) (f : Frame)
    (hL : f.out.length < ol) :
    StepOkF ol f (lzma_rep_len_part ol mr dor ps f).frame := by
  simp only [lzma_rep_len_part]
  set f1 : Frame := { f with state := if f.state < 7 then 8 else 11 } with hf1
  have h1 : RcPres f f1 := ⟨rfl, rfl, rfl, rfl, Nat.le_refl _, Nat.le_max_left _ _⟩
  set r := lzma_len f1 repLenRef ps with hr
  have h2 : RcPres f r.1 := rcPres_trans h1 (lzma_len_rcPres _ _ _)
  split
  · simp only [Step.frame]
    exact stepOkF_of_rcPres h2 (Nat.le_of_lt hL)
  · rename_i hne
    have hlen : 1 ≤ r.2 := by
      rcases lzma_len_pos f1 repLenRef ps with h | h <;> omega
    exact stepOkF_comp h2 (dict_repeat_stepOkF ol mr dor r.1 r.2
      (by rw [h2.2.2.2.1]; exact hL) hlen)

theorem lzma_match_part_ok (ol : Nat) (mr : Bool) (dor ps : Nat) (f : Frame)
    (hL : f.out.length < ol) :
    StepOkF ol f (lzma_match_part ol mr dor ps f).frame := by
  simp only [lzma_match_part]
  set g1 : Frame := { f with state := (if f.state < 7 then 7 else 10),
                             rep3 := f.rep2, rep2 := f.rep1, rep1 := f.rep0 } with hg1
  have h1 : RcPres f g1 := ⟨rfl, rfl, rfl, rfl, Nat.le_refl _, Nat.le_max_left _ _⟩
  set lr := lzma_len g1 matchLenRef ps with hlr
  have h2 : RcPres f lr.1 := rcPres_trans h1 (lzma_len_rcPres _ _ _)
  split
  · simp only [Step.frame]
    exact stepOkF_of_rcPres h2 (Nat.le_of_lt hL)
  · rename_i hne
    have hlen : 1 ≤ lr.2 := by
      rcases lzma_len_pos g1 matchLenRef ps with h | h <;> omega
    set ds := rc_bittree lr.1 (distSlotRef (if lr.2 < 6 then lr.2 - 2 else 3)) 6 with hds
    have h3 : RcPres f ds.1 := rcPres_trans h2 (rc_bittree_rcPres _ _ _)
    split
    · simp only [Step.frame]
      exact stepOkF_of_rcPres h3 (Nat.le_of_lt hL)
    · rename_i hdsne
      split
      · -- dist_slot < DIST_MODEL_START
        have h4 : RcPres f { ds.1 with rep0 := ds.2 - 64 } :=
          rcPres_upd h3 rfl rfl rfl rfl rfl
        exact stepOkF_comp h4 (dict_repeat_stepOkF ol mr dor _ lr.2
          (by rw [h4.2.2.2.1]; exact hL) hlen)
      · split
        · -- dist_slot < DIST_MODEL_END: reverse bittree on dist_special
          set rv := rc_bittree_reverse ((ds.2 - 64) >>> 1 - 1) ds.1
            (distSpecialRef ((2 + ((ds.2 - 64) &&& 1)) <<< ((ds.2 - 64) >>> 1 - 1))
              (ds.2 - 64)) 1 1
            ((2 + ((ds.2 - 64) &&& 1)) <<< ((ds.2 - 64) >>> 1 - 1)) with hrv
          have h4 : RcPres f rv.1 := rcPres_trans h3 (rc_bittree_reverse_rcPres _ _ _ _ _ _)
          split
          · simp only [Step.frame]
            exact stepOkF_of_rcPres h4 (Nat.le_of_lt hL)
          · have h5 : RcPres f { rv.1 with rep0 := rv.2.1 } :=
              rcPres_upd h4 rfl rfl rfl rfl rfl
            exact stepOkF_comp h5 (dict_repeat_stepOkF ol mr dor _ lr.2
              (by rw [h5.2.2.2.1]; exact hL) hlen)
        · -- direct bits then dist_align reverse bittree
          set rd := rc_direct ((ds.2 - 64) >>> 1 - 1 - 4) ds.1 (2 + ((ds.2 - 64) &&& 1)) with hrd
          have h4 : RcPres f rd.1 := rcPres_trans h3 (rc_direct_rcPres _ _ _)
          split
          · simp only [Step.frame]
            exact stepOkF_of_rcPres h4 (Nat.le_of_lt hL)
          · set rv := rc_bittree_reverse 4 rd.1 distAlignRef 1 1 (rd.2.1 <<< 4) with hrv
            have h5 : RcPres f rv.1 := rcPres_trans h4 (rc_bittree_reverse_rcPres _ _ _ _ _ _)
            split
            · simp only [Step.frame]
              exact stepOkF_of_rcPres h5 (Nat.le_of_lt hL)
            · have h6 : RcPres f { rv.1 with rep0 := rv.2.1 } :=
                rcPres_upd h5 rfl rfl rfl rfl rfl
              exact stepOkF_comp h6 (dict_repeat_stepOkF ol mr dor _ lr.2
                (by rw [h6.2.2.2.1]; exact hL) hlen)

theorem stepOkF_append {ol : Nat} {f : Frame} (g : Frame) (h : RcPres f g)
    (hL : f.out.length < ol) (b st : Nat) :
    StepOkF ol f { g with out := g.out ++ [b], state := st } := by
  obtain ⟨e1, e2, e3, e4, a5, a6⟩ := h
  refine ⟨e1, e2, e3, a5, a6, ?_, ?_⟩ <;> simp [e4] <;> omega

theorem stepOkF_dict_repeat {ol : Nat} {mr : Bool} {dor : Nat} {f g : Frame}
    (h : RcPres f g) (hL : f.out.length < ol) {len : Nat} (hlen : 1 ≤ len) :
    StepOkF ol f (dict_repeat ol mr dor g len).frame := by
  refine stepOkF_comp h (dict_repeat_stepOkF ol mr dor g len ?_ hlen)
  rw [h.2.2.2.1]; exact hL

theorem stepOkF_rep_len {ol : Nat} {mr : Bool} {dor ps : Nat} {f g : Frame}
    (h : RcPres f g) (hL : f.out.length < ol) :
    StepOkF ol f (lzma_rep_len_part ol mr dor ps g).frame := by
  refine stepOkF_comp h (lzma_rep_len_part_ok ol mr dor ps g ?_)
  rw [h.2.2.2.1]; exact hL

theorem stepOkF_match {ol : Nat} {mr : Bool} {dor ps : Nat} {f g : Frame}
    (h : RcPres f g) (hL : f.out.length < ol) :
    StepOkF ol f (lzma_match_part ol mr dor ps g).frame := by
  refine stepOkF_comp h (lzma_match_part_ok ol mr dor ps g ?_)
  rw [h.2.2.2.1]; exact hL

theorem lzma_literal_part_ok (ol : Nat) (dor : Nat) (f1 : Frame)
    (hL : f1.out.length < ol) :
    StepOkF ol f1 (lzma_literal_part dor f1).frame := by
  simp only [lzma_literal_part]
  repeat' split
  all_goals simp only [Step.frame]
  all_goals
    first
    | exact stepOkF_of_rcPres (rcPres_refl f1) (Nat.le_of_lt hL)
    | exact stepOkF_of_rcPres (rc_bittree_rcPres _ _ _) (Nat.le_of_lt hL)
    | exact stepOkF_append _ (rc_bittree_rcPres _ _ _) hL _ _
    | exact stepOkF_of_rcPres (lzma_matched_literal_rcPres _ _ _ _ _ _) (Nat.le_of_lt hL)
    | exact stepOkF_append _ (lzma_matched_literal_rcPres _ _ _ _ _ _) hL _ _

theorem lzma_shortrep_part_ok (ol : Nat) (mr : Bool) (dor : Nat) (frl1 : Frame)
    (hL : frl1.out.length < ol) :
    StepOkF ol frl1 (lzma_shortrep_part ol mr dor frl1).frame := by
  simp only [lzma_shortrep_part]
  refine stepOkF_dict_repeat ?_ hL (Nat.le_refl 1)
  exact ⟨rfl, rfl, rfl, rfl, Nat.le_refl _, Nat.le_max_left _ _⟩

theorem stepOkF_shortrep {ol : Nat} {mr : Bool} {dor : Nat} {f g : Frame}
    (h : RcPres f g) (hL : f.out.length < ol) :
    StepOkF ol f (lzma_shortrep_part ol mr dor g).frame := by
  refine stepOkF_comp h (lzma_shortrep_part_ok ol mr dor g ?_)
  rw [h.2.2.2.1]; exact hL

theorem lzma_rep0_part_ok (ol : Nat) (mr : Bool) (dor ps : Nat) (f5 : Frame)
    (hL : f5.out.length < ol) :
    StepOkF ol f5 (lzma_rep0_part ol mr dor ps f5).frame := by
  simp only [lzma_rep0_part]
  split
  · simp only [Step.frame]
    exact stepOkF_of_rcPres (rc_normalize_rcPres _) (Nat.le_of_lt hL)
  · split
    · exact stepOkF_shortrep
        (rcPres_trans (rc_normalize_rcPres _) (rc_bit_one_rcPres _ _)) hL
    · exact stepOkF_rep_len
        (rcPres_trans (rc_normalize_rcPres _) (rc_bit_one_rcPres _ _)) hL

set_option maxHeartbeats 2000000 in
theorem lzma_repn_part_ok (ol : Nat) (mr : Bool) (dor ps : Nat) (f5 : Frame)
    (hL : f5.out.length < ol) :
    StepOkF ol f5 (lzma_repn_part ol mr dor ps f5).frame := by
  simp only [lzma_repn_part]
  set A := rc_normalize f5 with hA
  have hA' : RcPres f5 A.1 := rc_normalize_rcPres f5
  split
  · simp only [Step.frame]
    exact stepOkF_of_rcPres hA' (Nat.le_of_lt hL)
  · set B := rc_bit_one A.1 (isRep1Var A.1.state) with hB
    have hB' : RcPres f5 B.1 := rcPres_trans hA' (rc_bit_one_rcPres _ _)
    split
    · refine stepOkF_rep_len ?_ hL
      exact rcPres_upd hB' rfl rfl rfl rfl rfl
    · set C := rc_normalize B.1 with hC
      have hC' : RcPres f5 C.1 := rcPres_trans hB' (rc_normalize_rcPres _)
      split
      · simp only [Step.frame]
        exact stepOkF_of_rcPres hC' (Nat.le_of_lt hL)
      · set D := rc_bit_one C.1 (isRep2Var C.1.state) with hD
        have hD' : RcPres f5 D.1 := rcPres_trans hC' (rc_bit_one_rcPres _ _)
        split
        · refine stepOkF_rep_len ?_ hL
          exact rcPres_upd hD' rfl rfl rfl rfl rfl
        · refine stepOkF_rep_len ?_ hL
          exact rcPres_upd hD' rfl rfl rfl rfl rfl

theorem lzma_rep_part_ok (ol : Nat) (mr : Bool) (dor ps : Nat) (f3 : Frame)
    (hL : f3.out.length < ol) :
    StepOkF ol f3 (lzma_rep_part ol mr dor ps f3).frame := by
  simp only [lzma_rep_part]
  split
  · simp only [Step.frame]
    exact stepOkF_of_rcPres (rc_normalize_rcPres _) (Nat.le_of_lt hL)
  · split
    · refine stepOkF_comp
        (rcPres_trans (rc_normalize_rcPres f3) (rc_bit_one_rcPres _ _))
        (lzma_rep0_part_ok ol mr dor ps _ ?_)
      rw [(rcPres_trans (rc_normalize_rcPres f3) (rc_bit_one_rcPres _ _)).2.2.2.1]
      exact hL
    · refine stepOkF_comp
        (rcPres_trans (rc_normalize_rcPres f3) (rc_bit_one_rcPres _ _))
        (lzma_repn_part_ok ol mr dor ps _ ?_)
      rw [(rcPres_trans (rc_normalize_rcPres f3) (rc_bit_one_rcPres _ _)).2.2.2.1]
      exact hL

theorem lzma_step_ok (ol : Nat) (mr : Bool) (dor : Nat) (f : Frame)
    (hL : f.out.length < ol) :
    StepOkF ol f (lzma_step ol mr dor f).frame := by
  simp only [lzma_step]
  split
  · refine stepOkF_comp (rc_bit_one_rcPres f _) (lzma_literal_part_ok ol dor _ ?_)
    rw [(rc_bit_one_rcPres f (isMatchVar f.state
      ((f.out.length - dor) &&& ((1 <<< f.pb) - 1)))).2.2.2.1]
    exact hL
  · split
    · simp only [Step.frame]
      exact stepOkF_of_rcPres
        (rcPres_trans (rc_bit_one_rcPres f _) (rc_normalize_rcPres _)) (Nat.le_of_lt hL)
    · split
      · refine stepOkF_comp
          (rcPres_trans (rcPres_trans (rc_bit_one_rcPres f _) (rc_normalize_rcPres _))
            (rc_bit_one_rcPres _ _))
          (lzma_rep_part_ok ol mr dor _ _ ?_)
        rw [(rcPres_trans (rcPres_trans (rc_bit_one_rcPres f _) (rc_normalize_rcPres _))
          (rc_bit_one_rcPres _ _)).2.2.2.1]
        exact hL
      · refine stepOkF_comp
          (rcPres_trans (rcPres_trans (rc_bit_one_rcPres f _) (rc_normalize_rcPres _))
            (rc_bit_one_rcPres _ _))
          (lzma_match_part_ok ol mr dor _ _ ?_)
        rw [(rcPres_trans (rcPres_trans (rc_bit_one_rcPres f _) (rc_normalize_rcPres _))
          (rc_bit_one_rcPres _ _)).2.2.2.1]
        exact hL

theorem lzma_main_ok :
    ∀ (fuel ol : Nat) (mr : Bool) (dor : Nat) (f : Frame),
      f.out.length ≤ ol → StepOkF ol f (lzma_main fuel ol mr dor f).frame := by
  intro fuel
  induction fuel with
  | zero =>
    intro ol mr dor f hL
    simp only [lzma_main, LoopRes.frame]
    exact stepOkF_of_rcPres (rcPres_refl f) hL
  | succ fuel ih =>
    intro ol mr dor f hL
    simp only [lzma_main]
    split
    · simp only [LoopRes.frame]
      exact stepOkF_of_rcPres (rc_normalize_rcPres f) hL
    · split
      · simp only [LoopRes.frame]
        exact stepOkF_of_rcPres (rc_normalize_rcPres f) hL
      · rename_i hnf hlt
        have hL1 : (rc_normalize f).1.out.length < ol := by
          simp only [ge_iff_le, not_le] at hlt
          exact hlt
        have hstep := stepOkF_comp (rc_normalize_rcPres f)
          (lzma_step_ok ol mr dor (rc_normalize f).1 hL1)
        split
        · rename_i f' heq
          rw [heq] at hstep
          simp only [Step.frame] at hstep
          exact stepOkF_trans hstep (ih ol mr dor f' hstep.2.2.2.2.2.2)
        · rename_i f' heq
          rw [heq] at hstep
          simp only [Step.frame] at hstep
          simpa only [LoopRes.frame] using hstep
        · rename_i s f' heq
          rw [heq] at hstep
          simp only [Step.frame] at hstep
          simpa only [LoopRes.frame] using hstep

theorem out_limit_more_run_bounds (os L u : Nat) (h : L ≤ os) :
    L ≤ (out_limit_more_run os L u).1 ∧ (out_limit_more_run os L u).1 ≤ os := by
  simp only [out_limit_more_run]
  split <;> constructor <;> simp <;> omega

theorem lzma_chunk_header_error (np : Bool) (os : Nat) (f : Frame) (c : Nat)
    (s : Status) (f' : Frame) (hin : f.incount ≤ f.inlimit)
    (h : lzma_chunk_header np os f c = .error (s, f')) :
    f'.out = f.out ∧ f.incount ≤ f'.incount ∧ f'.incount ≤ f.inlimit := by
  simp only [lzma_chunk_header] at h
  split at h
  · simp only [Except.error.injEq, Prod.mk.injEq] at h
    obtain ⟨-, hf⟩ := h
    subst hf
    exact ⟨rfl, Nat.le_refl _, hin⟩
  · split at h
    · simp only [Except.error.injEq, Prod.mk.injEq] at h
      obtain ⟨-, hf⟩ := h
      subst hf
      exact ⟨rfl, Nat.le_refl _, hin⟩
    · split at h
      · -- props step errored
        rename_i e heq
        simp only [Except.error.injEq] at h
        subst h
        split at heq
        · split at heq
          · simp only [Except.error.injEq, Prod.mk.injEq] at heq
            obtain ⟨-, hf⟩ := heq
            subst hf
            exact ⟨rfl, by simp, by simp; omega⟩
          · split at heq
            · simp only [Except.error.injEq, Prod.mk.injEq] at heq
              obtain ⟨-, hf⟩ := heq
              subst hf
              exact ⟨rfl, by simp; omega, by simp; omega⟩
            · simp at heq
        · simp at heq
      · -- props step succeeded, later error
        rename_i f2 heq
        have hf2 : f2.out = f.out ∧ f.incount ≤ f2.incount ∧ f2.incount ≤ f.inlimit ∧
            f2.inlimit = f.inlimit := by
          split_ifs at heq
          · split at heq
            · simp at heq
            · simp only [Except.ok.injEq] at heq
              rw [← heq]
              refine ⟨rfl, ?_, ?_, rfl⟩
              · show f.incount ≤ f.incount + 4 + 1
                omega
              · show f.incount + 4 + 1 ≤ f.inlimit
                omega
          · simp only [Except.ok.injEq] at heq
            rw [← heq]
            refine ⟨rfl, ?_, ?_, rfl⟩
            · show f.incount ≤ f.incount + 4
              omega
            · show f.incount + 4 ≤ f.inlimit
              omega
        obtain ⟨ho, hi1, hi2, hi3⟩ := hf2
        by_cases hc : 160 ≤ c
        · simp only [if_pos hc, lzma_reset, rc_reset] at h
          split_ifs at h <;>
            first
            | (simp at h
               done)
            | (simp only [Except.error.injEq, Prod.mk.injEq] at h
               obtain ⟨-, hf⟩ := h
               subst hf
               refine ⟨?_, ?_, ?_⟩ <;> simp [ho] <;> omega)
        · simp only [if_neg hc] at h
          split_ifs at h <;>
            first
            | (simp at h
               done)
            | (simp only [Except.error.injEq, Prod.mk.injEq] at h
               obtain ⟨-, hf⟩ := h
               subst hf
               refine ⟨?_, ?_, ?_⟩ <;> simp [ho] <;> omega)

theorem lzma_chunk_header_some (np : Bool) (os : Nat) (f : Frame) (c : Nat)
    (r : Bool × Frame × Nat × Bool) (hin : f.incount ≤ f.inlimit)
    (h : lzma_chunk_header np os f c = .ok r) :
    r.2.1.inlimit = f.inlimit ∧ r.2.1.out = f.out ∧
    f.incount ≤ r.2.1.incount ∧ r.2.1.incount ≤ r.2.1.rc_limit ∧
    r.2.1.rc_limit ≤ f.inlimit ∧
    (f.out.length ≤ os → f.out.length ≤ r.2.2.1 ∧ r.2.2.1 ≤ os) := by
  simp only [lzma_chunk_header] at h
  split at h
  · simp at h
  · split at h
    · simp at h
    · split at h
      · simp at h
      · rename_i f2 heq
        have hf2 : f2.out = f.out ∧ f.incount ≤ f2.incount ∧ f2.incount ≤ f.inlimit ∧
            f2.inlimit = f.inlimit := by
          split_ifs at heq
          · split at heq
            · simp at heq
            · simp only [Except.ok.injEq] at heq
              rw [← heq]
              refine ⟨rfl, ?_, ?_, rfl⟩
              · show f.incount ≤ f.incount + 4 + 1
                omega
              · show f.incount + 4 + 1 ≤ f.inlimit
                omega
          · simp only [Except.ok.injEq] at heq
            rw [← heq]
            refine ⟨rfl, ?_, ?_, rfl⟩
            · show f.incount ≤ f.incount + 4
              omega
            · show f.incount + 4 ≤ f.inlimit
              omega
        obtain ⟨ho, hi1, hi2, hi3⟩ := hf2
        by_cases hc : 160 ≤ c
        · simp only [if_pos hc, lzma_reset, rc_reset] at h
          split_ifs at h <;>
            first
            | (simp at h
               done)
            | (simp only [Except.ok.injEq] at h
               rw [← h]
               refine ⟨by simp [hi3], by simp [ho], by dsimp only; omega,
                 by dsimp only; omega, by dsimp only; omega, ?_⟩
               intro hos
               refine ⟨?_, ?_⟩ <;>
                 (simp only [ho]
                  first
                  | exact (out_limit_more_run_bounds _ _ _ hos).1
                  | exact (out_limit_more_run_bounds _ _ _ hos).2))
        · simp only [if_neg hc] at h
          split_ifs at h <;>
            first
            | (simp at h
               done)
            | (simp only [Except.ok.injEq] at h
               rw [← h]
               refine ⟨by simp [hi3], by simp [ho], by dsimp only; omega,
                 by dsimp only; omega, by dsimp only; omega, ?_⟩
               intro hos
               refine ⟨?_, ?_⟩ <;>
                 (simp only [ho]
                  first
                  | exact (out_limit_more_run_bounds _ _ _ hos).1
                  | exact (out_limit_more_run_bounds _ _ _ hos).2))

theorem run_uncompressed_chunk_inv (N M : Nat) (st : St) (f : Frame)
    (hso : st.outsize = M) (hfl : f.inlimit = N) (hrc : f.rc_limit ≤ N)
    (hin : f.incount ≤ N) (hout : f.out.length ≤ M) :
    ChunkInv N M (run_uncompressed_chunk st f) := by
  subst hfl hso
  simp only [run_uncompressed_chunk]
  split
  · exact ⟨hin, hout⟩
  · split_ifs <;>
      (dsimp only [ChunkInv, StInv]
       repeat' apply And.intro
       all_goals dsimp only
       all_goals try simp only [List.length_append, List.length_map, List.length_range]
       all_goals omega)

theorem run_lzma_chunk_inv (N M fuel : Nat) (st : St) (f : Frame) (c : Nat)
    (hso : st.outsize = M) (hfl : f.inlimit = N)
    (hin : f.incount ≤ N) (hout : f.out.length ≤ M) :
    ChunkInv N M (run_lzma_chunk fuel st f c) := by
  simp only [run_lzma_chunk]
  split
  · -- header failed
    rename_i e heq
    have he := lzma_chunk_header_error st.need_properties st.outsize f c e.1 e.2
      (by omega) (by rw [heq])
    simp only [ChunkInv]
    refine ⟨by omega, ?_⟩
    rw [he.1]
    exact hout
  · rename_i r heq
    have hh := lzma_chunk_header_some st.need_properties st.outsize f c r
      (by omega) heq
    obtain ⟨e_inl, e_out, l1, l2, l3, himp⟩ := hh
    have hob := himp (by omega)
    have hml := lzma_main_ok fuel r.2.2.1 r.2.2.2 st.dict_origin r.2.1
      (by rw [e_out]; exact hob.1)
    split
    · trivial
    · rename_i f2 heq2
      rw [heq2] at hml
      simp only [LoopRes.frame] at hml
      obtain ⟨m1, m2, m3, m4, m5, m6, m7⟩ := hml
      simp only [ChunkInv]
      constructor
      · omega
      · omega
    · rename_i s2 f2 heq2
      rw [heq2] at hml
      simp only [LoopRes.frame] at hml
      obtain ⟨m1, m2, m3, m4, m5, m6, m7⟩ := hml
      simp only [ChunkInv]
      constructor
      · omega
      · omega
    · rename_i f2 heq2
      rw [heq2] at hml
      simp only [LoopRes.frame] at hml
      obtain ⟨m1, m2, m3, m4, m5, m6, m7⟩ := hml
      split
      · simp only [ChunkInv]
        constructor
        · omega
        · omega
      · simp only [ChunkInv, StInv]
        refine ⟨by omega, hso, by omega, by omega, by omega⟩

theorem processChunk_inv (N M fuel : Nat) (st : St) (hi : StInv N M st) :
    ChunkInv N M (processChunk fuel st) := by
  obtain ⟨h1, h2, h3, h4, h5⟩ := hi
  simp only [processChunk]
  split
  · exact ⟨by omega, h5⟩
  · split
    · exact ⟨by simp; omega, h5⟩
    · rename_i hge
      have hnl : st.frame.incount < st.frame.inlimit := by omega
      split
      · split
        · exact run_lzma_chunk_inv N M fuel _ _ _ h2 (by simp [h1]) (by simp; omega) h5
        · split
          · exact ⟨by simp; omega, h5⟩
          · exact run_uncompressed_chunk_inv N M _ _ h2 (by simp [h1]) (by simp [h4])
              (by simp; omega) h5
      · split
        · exact ⟨by simp; omega, h5⟩
        · split
          · exact run_lzma_chunk_inv N M fuel _ _ _ h2 (by simp [h1]) (by simp; omega) h5
          · split
            · exact ⟨by simp; omega, h5⟩
            · exact run_uncompressed_chunk_inv N M _ _ h2 (by simp [h1]) (by simp [h4])
                (by simp; omega) h5

theorem uncompressLoop_inv (N M : Nat) :
    ∀ (fuel : Nat) (st : St), StInv N M st →
      ∀ (s : Status) (f : Frame), uncompressLoop fuel st = some (s, f) →
        f.incount ≤ N ∧ f.out.length ≤ M := by
  intro fuel
  induction fuel with
  | zero =>
    intro st _ s f h
    simp [uncompressLoop] at h
  | succ fuel ih =>
    intro st hinv s f h
    simp only [uncompressLoop] at h
    split at h
    · rename_i s' f' heq
      have hc := processChunk_inv N M (fuel + 1) st hinv
      rw [heq] at hc
      simp only [ChunkInv] at hc
      simp only [Option.some.injEq, Prod.mk.injEq] at h
      obtain ⟨-, hf⟩ := h
      subst hf
      exact hc
    · simp at h
    · rename_i st' heq
      have hc := processChunk_inv N M (fuel + 1) st hinv
      rw [heq] at hc
      simp only [ChunkInv] at hc
      exact ih st' hc s f h

/-- C7: on every return from `uncompress_lzma2`, whatever the status tag,
`*insize_ptr` is the number of input bytes consumed and `*outsize_ptr` the
number of output bytes produced (the returned byte list), and these never
exceed the input size and output size passed in. -/
theorem c7_conservation (fuel : Nat) (inbuf : List Nat) (insize outsize : Nat)
    (s : Status) (inConsumed outProduced : Nat) (outl : List Nat)
    (h : uncompress_lzma2 fuel inbuf insize outsize =
      some (s, inConsumed, outProduced, outl)) :
    inConsumed ≤ insize ∧ outProduced ≤ outsize ∧ outProduced = outl.length := by
  simp only [uncompress_lzma2] at h
  split at h
  · simp at h
  · rename_i s0 f0 heq
    simp only [Option.some.injEq, Prod.mk.injEq] at h
    obtain ⟨-, h1, h2, h3⟩ := h
    subst h1 h2 h3
    have hs : StInv insize outsize (initSt inbuf insize outsize) := by
      refine ⟨rfl, rfl, ?_, ?_, ?_⟩ <;> simp [initSt, initFrame]
    have := uncompressLoop_inv insize outsize fuel (initSt inbuf insize outsize) hs s0 f0 heq
    exact ⟨this.1, this.2, rfl⟩

/-- Witness for C7 at the spec's S2 input. -/
theorem c7_conservation_witness :
    uncompress_lzma2 50 helloIn 9 5 =
      some (.ok, 9, 5, [0x68, 0x65, 0x6C, 0x6C, 0x6F]) ∧
    (9 ≤ 9 ∧ 5 ≤ 5 ∧ 5 = [0x68, 0x65, 0x6C, 0x6C, 0x6F].length) :=
  ⟨by decide, c7_conservation 50 helloIn 9 5 .ok 9 5 [0x68, 0x65, 0x6C, 0x6C, 0x6F]
    (by decide)⟩

/-- C2: decoding one binary symbol against an 11-bit probability `p` computes
`bound = (range >> 11) * p`; bit 0 exactly when `code < bound`, with
`range <- bound`, `p <- p + ((2048 - p) >> 5)`; otherwise bit 1 with
`range <- range - bound`, `code <- code - bound`, `p <- p - (p >> 5)` —
exactly the spec's formulas (`rc_bit_spec`), and the updated probability stays
in the reachable range `[0, 2048]`. -/
theorem c2_rc_bit (range code p : Nat) (hp : p ≤ 2048) :
    rc_bit range code p = rc_bit_spec range code p
    ∧ ((rc_bit range code p).1 = false ↔ code < (range >>> 11) * p)
    ∧ ((rc_bit range code p).1 = false →
        rc_bit range code p =
          (false, (range >>> 11) * p, code, p + ((2048 - p) >>> 5)))
    ∧ ((rc_bit range code p).1 = true →
        rc_bit range code p =
          (true, range - (range >>> 11) * p, code - (range >>> 11) * p, p - (p >>> 5)))
    ∧ (rc_bit range code p).2.2.2 ≤ 2048 := by
  refine ⟨rfl, ?_, ?_, ?_, ?_⟩ <;> simp only [rc_bit] <;> split <;>
    rename_i hb <;> simp_all <;> omega

/-- Witness for C2 at the initial coder state. -/
theorem c2_rc_bit_witness :
    (1024 ≤ 2048) ∧
    (rc_bit 0xFFFFFFFF 0 1024 = rc_bit_spec 0xFFFFFFFF 0 1024
    ∧ ((rc_bit 0xFFFFFFFF 0 1024).1 = false ↔ 0 < (0xFFFFFFFF >>> 11) * 1024)
    ∧ ((rc_bit 0xFFFFFFFF 0 1024).1 = false →
        rc_bit 0xFFFFFFFF 0 1024 =
          (false, (0xFFFFFFFF >>> 11) * 1024, 0, 1024 + ((2048 - 1024) >>> 5)))
    ∧ ((rc_bit 0xFFFFFFFF 0 1024).1 = true →
        rc_bit 0xFFFFFFFF 0 1024 =
          (true, 0xFFFFFFFF - (0xFFFFFFFF >>> 11) * 1024,
            0 - (0xFFFFFFFF >>> 11) * 1024, 1024 - (1024 >>> 5)))
    ∧ (rc_bit 0xFFFFFFFF 0 1024).2.2.2 ≤ 2048) :=
  ⟨by decide, c2_rc_bit 0xFFFFFFFF 0 1024 (by decide)⟩

theorem subdivGo_eq :
    ∀ (fuel p d : Nat), 0 < d → p ≤ fuel → subdivGo fuel p d = (p / d, p % d) := by
  intro fuel
  induction fuel with
  | zero =>
    intro p d hd hp
    have : p = 0 := by omega
    subst this
    simp [subdivGo, Nat.zero_div, Nat.zero_mod]
  | succ fuel ih =>
    intro p d hd hp
    simp only [subdivGo]
    split
    · rename_i hc
      rw [ih (p - d) d hd (by omega)]
      conv_rhs => rw [Nat.div_eq p d, Nat.mod_eq p d]
      rw [if_pos hc, if_pos hc]
    · rename_i hc
      conv_rhs => rw [Nat.div_eq p d, Nat.mod_eq p d]
      rw [if_neg hc, if_neg hc]

theorem subdiv_eq (p d : Nat) (hd : 0 < d) : subdiv p d = (p / d, p % d) :=
  subdivGo_eq p p d hd (Nat.le_refl p)

theorem mod45_div9 (q r : Nat) (hr : r < 45) :
    (45 * q + r) % 45 / 9 = (45 * q + r) / 9 % 5 := by
  have h1 : (45 * q + r) % 45 = r := by
    rw [Nat.mul_add_mod]
    exact Nat.mod_eq_of_lt hr
  have h2 : (45 * q + r) / 9 = 5 * q + r / 9 := by
    have h45 : 45 * q + r = 9 * (5 * q) + r := by ring
    rw [h45, Nat.mul_add_div (by norm_num)]
  rw [h1, h2, Nat.mul_add_mod, Nat.mod_eq_of_lt (by omega)]

theorem mod_div_45_9 (a : Nat) : a % 45 / 9 = a / 9 % 5 := by
  have h := mod45_div9 (a / 45) (a % 45) (Nat.mod_lt _ (by norm_num))
  rwa [Nat.div_add_mod] at h

/-- C6: the properties byte of a `control >= 0xC0` chunk is rejected
(`DATA_ERROR`, i.e. `parse_props` returns `none`) exactly when it exceeds 224,
and otherwise decomposes as `lc = props mod 9`, `lp = (props div 9) mod 5`,
`pb = props div 45`, with `lc ∈ [0,8]`, `lp ∈ [0,4]`, `pb ∈ [0,4]`. -/
theorem c6_props (props : Nat) :
    (parse_props props = none ↔ 224 < props)
    ∧ (props ≤ 224 →
        parse_props props = some (props % 9, props / 9 % 5, props / 45)
        ∧ props % 9 ≤ 8 ∧ props / 9 % 5 ≤ 4 ∧ props / 45 ≤ 4) := by
  constructor
  · simp only [parse_props]
    split
    · simp
      omega
    · simp
      omega
  · intro hle
    simp only [parse_props]
    rw [if_neg (by omega)]
    rw [subdiv_eq props (5 * 9) (by norm_num)]
    rw [subdiv_eq (props % (5 * 9)) 9 (by norm_num)]
    refine ⟨?_, by omega, by omega, by omega⟩
    simp only [Option.some.injEq, Prod.mk.injEq]
    have h59 : (5 : Nat) * 9 = 45 := by norm_num
    rw [h59]
    exact ⟨by omega, mod_div_45_9 props, by trivial⟩

/-- Witness for C6 at the common xz default `lc=3, lp=0, pb=2`
(`props = 0x5D = 93`). -/
theorem c6_props_witness :
    (93 ≤ 224 →
      parse_props 93 = some (93 % 9, 93 / 9 % 5, 93 / 45)
      ∧ 93 % 9 ≤ 8 ∧ 93 / 9 % 5 ≤ 4 ∧ 93 / 45 ≤ 4) ∧
    (parse_props 93 = none ↔ 224 < 93) :=
  ⟨(c6_props 93).2, (c6_props 93).1⟩

/-- C3: the failing input `c3In` shows that an LZMA chunk with control byte
0x80 (no reset) does not get `rc_range = 0xFFFFFFFF`: after the first chunk is
decoded, the control byte at offset 12 is 0x80, the chunk header consumes its
five initialization bytes and sets `rc_code` to the big-endian value of init
bytes 1..4 (0x02030405), but `rc_range` is still 0x7FFE0000, the value left
behind by the previous chunk — `rc_reset` runs only for `control >= 0xA0`. -/
theorem c3_bug :
    (processChunk 50 (initSt c3In 22 4)).isCont = true
    ∧ ((processChunk 50 (initSt c3In 22 4)).contSt
        (initSt c3In 22 4)).frame.incount = 12
    ∧ ((processChunk 50 (initSt c3In 22 4)).contSt
        (initSt c3In 22 4)).frame.inbuf.getD 12 0 = 0x80
    ∧ headerIsOk (lzma_chunk_header
        ((processChunk 50 (initSt c3In 22 4)).contSt (initSt c3In 22 4)).need_properties
        ((processChunk 50 (initSt c3In 22 4)).contSt (initSt c3In 22 4)).outsize
        { ((processChunk 50 (initSt c3In 22 4)).contSt (initSt c3In 22 4)).frame with
            incount := 13 } 0x80) = true
    ∧ (headerFrame (lzma_chunk_header
        ((processChunk 50 (initSt c3In 22 4)).contSt (initSt c3In 22 4)).need_properties
        ((processChunk 50 (initSt c3In 22 4)).contSt (initSt c3In 22 4)).outsize
        { ((processChunk 50 (initSt c3In 22 4)).contSt (initSt c3In 22 4)).frame with
            incount := 13 } 0x80)
        (initFrame c3In 22)).rc_code = 0x02030405
    ∧ (headerFrame (lzma_chunk_header
        ((processChunk 50 (initSt c3In 22 4)).contSt (initSt c3In 22 4)).need_properties
        ((processChunk 50 (initSt c3In 22 4)).contSt (initSt c3In 22 4)).outsize
        { ((processChunk 50 (initSt c3In 22 4)).contSt (initSt c3In 22 4)).frame with
            incount := 13 } 0x80)
        (initFrame c3In 22)).rc_range = 0x7FFE0000
    ∧ (0x7FFE0000 : Nat) ≠ 0xFFFFFFFF := by
  decide

/-- C4 counterexample: `c4In` declares `uncompressed = 2` into an output
buffer of size 2, so the declared size fits (`0 + 2 ≤ 2`), yet `more_run` is
recorded false and the mid-copy overrun is reported `OUTLIMIT`, not
`DATA_ERROR` as the claim requires. -/
theorem c4_counterexample :
    0 + 2 ≤ 2
    ∧ (out_limit_more_run 2 0 2).2 = false
    ∧ uncompress_lzma2 100 c4In 14 2 = some (.outLimit, 13, 2, [0, 0])
    ∧ Status.outLimit ≠ Status.dataError := by
  decide

/-- C4 amended: `more_run` is true exactly when
`outcount + uncompressed < outsize` (strictly; on equality the source takes the
`more_run = false` path), in which case `out_limit = outcount + uncompressed`,
else `out_limit = outsize`; and an LZ77 copy that overruns `out_limit` reports
`DATA_ERROR` when `more_run` is true and `OUTLIMIT` when it is false, after
copying only what fits. -/
theorem c4_more_run (outsize outcount uncompressed : Nat) (h : outcount ≤ outsize) :
    ((out_limit_more_run outsize outcount uncompressed).2 = true ↔
      outcount + uncompressed < outsize)
    ∧ ((out_limit_more_run outsize outcount uncompressed).2 = true →
        (out_limit_more_run outsize outcount uncompressed).1 = outcount + uncompressed)
    ∧ ((out_limit_more_run outsize outcount uncompressed).2 = false →
        (out_limit_more_run outsize outcount uncompressed).1 = outsize)
    ∧ (∀ (ol : Nat) (mr : Bool) (dor : Nat) (f : Frame) (len : Nat),
        ¬ f.out.length - dor ≤ f.rep0 →
        ol - f.out.length < len →
        dict_repeat ol mr dor f len =
          .finish (if mr then .dataError else .outLimit)
            { f with out := dict_copy (if ol - f.out.length = 0 then U32 else ol - f.out.length) f.out f.rep0 }) := by
  refine ⟨?_, ?_, ?_, ?_⟩
  · simp only [out_limit_more_run]
    split <;> simp <;> omega
  · simp only [out_limit_more_run]
    split <;> simp
  · simp only [out_limit_more_run]
    split <;> simp
  · intro ol mr dor f len hg ho
    simp only [dict_repeat]
    rw [if_neg hg]
    simp only [ho, if_true]
    cases mr <;> simp

/-- Witness for C4's amended statement. -/
theorem c4_more_run_witness :
    0 ≤ 5 ∧
    (((out_limit_more_run 5 0 2).2 = true ↔ 0 + 2 < 5)
    ∧ ((out_limit_more_run 5 0 2).2 = true → (out_limit_more_run 5 0 2).1 = 0 + 2)
    ∧ ((out_limit_more_run 5 0 2).2 = false → (out_limit_more_run 5 0 2).1 = 5)
    ∧ (∀ (ol : Nat) (mr : Bool) (dor : Nat) (f : Frame) (len : Nat),
        ¬ f.out.length - dor ≤ f.rep0 →
        ol - f.out.length < len →
        dict_repeat ol mr dor f len =
          .finish (if mr then .dataError else .outLimit)
            { f with out := dict_copy (if ol - f.out.length = 0 then U32 else ol - f.out.length) f.out f.rep0 })) :=
  ⟨by decide, c4_more_run 5 0 2 (by decide)⟩

/-- C1: for every emitted back-reference the decoder requires
`dist < outcount - dict_origin` at the moment of emission -- `dict_repeat`
returns `DATA_ERROR` with the frame unchanged when `outcount - dict_origin <=
rep[0]` -- and when the check holds, each of the copied bytes equals the byte
`rep[0] + 1` positions earlier, an offset inside `[dict_origin, outcount)` at
the moment that byte is read (the copy is byte by byte, so overlap is valid).
The same check guards the matched-literal path, which reads
`outbuf[outcount - rep[0] - 1]`, likewise an in-window offset. -/
theorem c1_dict_safety (ol : Nat) (mr : Bool) (dor : Nat) (f : Frame)
    (len : Nat) :
    (f.out.length - dor ≤ f.rep0 →
      dict_repeat ol mr dor f len = .finish .dataError f)
    ∧ (¬ f.out.length - dor ≤ f.rep0 → dor ≤ f.out.length →
        ∀ n k, k < n →
          (dict_copy n f.out f.rep0).getD (f.out.length + k) 0
            = (dict_copy n f.out f.rep0).getD (f.out.length + k - f.rep0 - 1) 0
          ∧ dor ≤ f.out.length + k - f.rep0 - 1
          ∧ f.out.length + k - f.rep0 - 1 < f.out.length + k)
    ∧ (¬ f.state < 7 → f.out.length - dor ≤ f.rep0 →
        lzma_literal_part dor f = .finish .dataError f)
    ∧ (¬ f.out.length - dor ≤ f.rep0 → dor ≤ f.out.length →
        dor ≤ f.out.length - f.rep0 - 1 ∧ f.out.length - f.rep0 - 1 < f.out.length) := by
  refine ⟨?_, ?_, ?_, ?_⟩
  · intro hg
    simp only [dict_repeat]
    rw [if_pos hg]
  · intro hg hd n k hk
    refine ⟨dict_copy_reads n f.out f.rep0 (by omega) k hk, by omega, by omega⟩
  · intro hs hg
    simp only [lzma_literal_part]
    rw [if_neg hs, if_pos hg]
  · intro hg hd
    omega

/-- C9: an LZMA chunk whose `compressed` field decodes below 5 is rejected
with `DATA_ERROR` after only the header bytes (4, plus the properties byte
when `control >= 0xC0`) are consumed: the 5 range-coder initialization bytes
are not consumed and the chunk produces no output. -/
theorem c9_small_compressed (np : Bool) (os : Nat) (f : Frame) (control : Nat)
    (hguard : ¬(control < 0xC0 ∧ np = true))
    (h4 : ¬ f.inlimit - f.incount < 4)
    (hprops : 0xC0 ≤ control → f.incount + 4 < f.inlimit ∧
      f.inbuf.getD (f.incount + 4) 0 ≤ 224)
    (hcomp : ((f.inbuf.getD (f.incount + 2) 0 <<< 8) |||
      f.inbuf.getD (f.incount + 3) 0) + 1 < 5) :
    ∃ f', lzma_chunk_header np os f control = .error (.dataError, f')
      ∧ f'.out = f.out
      ∧ f'.incount = f.incount + (if 0xC0 ≤ control then 5 else 4) := by
  simp only [lzma_chunk_header]
  rw [if_neg hguard, if_neg h4]
  by_cases hc : 0xC0 ≤ control
  · obtain ⟨hlt, hp⟩ := hprops hc
    simp only [if_pos hc, parse_props]
    rw [if_neg (show ¬ f.incount + 4 ≥ f.inlimit by omega)]
    rw [if_neg (show ¬ (4 * 5 + 4) * 9 + 8 < f.inbuf.getD (f.incount + 4) 0 by omega)]
    by_cases ha : 0xA0 ≤ control
    · simp only [if_pos ha, lzma_reset, rc_reset]
      rw [if_pos (show ((f.inbuf.getD (f.incount + 2) 0 <<< 8) |||
        f.inbuf.getD (f.incount + 3) 0) + 1 < 5 from hcomp)]
      exact ⟨_, rfl, rfl, by simp [if_pos hc]⟩
    · simp only [if_neg ha]
      rw [if_pos hcomp]
      exact ⟨_, rfl, rfl, by simp [if_pos hc]⟩
  · simp only [if_neg hc]
    by_cases ha : 0xA0 ≤ control
    · simp only [if_pos ha, lzma_reset, rc_reset]
      rw [if_pos hcomp]
      exact ⟨_, rfl, rfl, by simp [if_neg hc]⟩
    · simp only [if_neg ha]
      rw [if_pos hcomp]
      exact ⟨_, rfl, rfl, by simp [if_neg hc]⟩

/-- Witness for C9 at a control byte `0x80` and `compressed` field 4. -/
theorem c9_small_compressed_witness :
    (¬((0x80 : Nat) < 0xC0 ∧ false = true))
    ∧ (¬ c9Frame.inlimit - c9Frame.incount < 4)
    ∧ ((0xC0 : Nat) ≤ 0x80 → c9Frame.incount + 4 < c9Frame.inlimit ∧
        c9Frame.inbuf.getD (c9Frame.incount + 4) 0 ≤ 224)
    ∧ (((c9Frame.inbuf.getD (c9Frame.incount + 2) 0 <<< 8) |||
        c9Frame.inbuf.getD (c9Frame.incount + 3) 0) + 1 < 5)
    ∧ (∃ f', lzma_chunk_header false 4 c9Frame 0x80 = .error (.dataError, f')
        ∧ f'.out = c9Frame.out
        ∧ f'.incount = c9Frame.incount + (if (0xC0 : Nat) ≤ 0x80 then 5 else 4)) :=
  ⟨by decide, by decide, by decide, by decide,
    c9_small_compressed false 4 c9Frame 0x80 (by decide) (by decide) (by decide)
      (by decide)⟩

/-- C5: a failed renormalization is exactly the event "`rc_range` needs a byte
(`rc_range < 2^24` after the shift) but `incount` has reached `rc_limit`"; it
consumes nothing and writes nothing, and when the chunk's `lzma_main` ends in
that `rc_limit_reached` exit the call returns `INLIMIT` if `incount >= inlimit`
(the whole input is exhausted) and `DATA_ERROR` otherwise. -/
theorem c5_inlimit_precedence (g : Frame) (fuel : Nat) (st : St) (f : Frame)
    (control : Nat) (np' : Bool) (fh : Frame) (ol : Nat) (mr : Bool)
    (hok : lzma_chunk_header st.need_properties st.outsize f control =
      .ok (np', fh, ol, mr))
    (hmain : (lzma_main fuel ol mr st.dict_origin fh).isRcLimit = true) :
    ((rc_normalize g).2 = false ↔ g.rc_range < RC_TOP_VALUE ∧ g.rc_limit ≤ g.incount)
    ∧ ((rc_normalize g).2 = false →
        (rc_normalize g).1.incount = g.incount ∧ (rc_normalize g).1.out = g.out)
    ∧ run_lzma_chunk fuel st f control =
        .done (if (lzma_main fuel ol mr st.dict_origin fh).frame.incount ≥
                  (lzma_main fuel ol mr st.dict_origin fh).frame.inlimit
               then .inLimit else .dataError)
          ((lzma_main fuel ol mr st.dict_origin fh).frame) := by
  refine ⟨?_, ?_, ?_⟩
  · simp only [rc_normalize]
    by_cases h1 : g.rc_range < RC_TOP_VALUE
    · by_cases h2 : g.incount ≥ g.rc_limit
      · rw [if_pos h1, if_pos h2]
        exact iff_of_true rfl ⟨h1, by omega⟩
      · rw [if_pos h1, if_neg h2]
        exact iff_of_false (by simp) (by omega)
    · rw [if_neg h1]
      exact iff_of_false (by simp) (fun hc => h1 hc.1)
  · simp only [rc_normalize]
    split
    · split
      · intro _
        exact ⟨rfl, rfl⟩
      · simp
    · simp
  · simp only [run_lzma_chunk, hok]
    cases HM : lzma_main fuel ol mr st.dict_origin fh with
    | fuelOut f2 => rw [HM] at hmain; simp [LoopRes.isRcLimit] at hmain
    | normal f2 => rw [HM] at hmain; simp [LoopRes.isRcLimit] at hmain
    | finish s f2 => rw [HM] at hmain; simp [LoopRes.isRcLimit] at hmain
    | rcLimit f2 => simp [LoopRes.frame]

/-- Witness for C5 at the `c5In` chunk, whose compressed stream ends inside a
literal: the chunk header succeeds, `lzma_main` ends in the `rc_limit_reached`
exit, and the chunk returns through the exhaustion dispatch. -/
theorem c5_inlimit_precedence_witness :
    (lzma_chunk_header c5St.need_properties c5St.outsize c5F1 224 =
      .ok (headerNp c5H, headerFrame c5H c5F1, headerOl c5H, headerMr c5H))
    ∧ ((lzma_main 50 (headerOl c5H) (headerMr c5H) c5St.dict_origin
        (headerFrame c5H c5F1)).isRcLimit = true)
    ∧ (((rc_normalize (initFrame [] 0)).2 = false ↔
        (initFrame [] 0).rc_range < RC_TOP_VALUE ∧
          (initFrame [] 0).rc_limit ≤ (initFrame [] 0).incount)
      ∧ ((rc_normalize (initFrame [] 0)).2 = false →
          (rc_normalize (initFrame [] 0)).1.incount = (initFrame [] 0).incount
          ∧ (rc_normalize (initFrame [] 0)).1.out = (initFrame [] 0).out)
      ∧ run_lzma_chunk 50 c5St c5F1 224 =
          .done (if (lzma_main 50 (headerOl c5H) (headerMr c5H) c5St.dict_origin
                      (headerFrame c5H c5F1)).frame.incount ≥
                    (lzma_main 50 (headerOl c5H) (headerMr c5H) c5St.dict_origin
                      (headerFrame c5H c5F1)).frame.inlimit
                 then .inLimit else .dataError)
            ((lzma_main 50 (headerOl c5H) (headerMr c5H) c5St.dict_origin
              (headerFrame c5H c5F1)).frame)) :=
  ⟨rfl, by decide,
    c5_inlimit_precedence (initFrame [] 0) 50 c5St c5F1 224
      (headerNp c5H) (headerFrame c5H c5F1) (headerOl c5H) (headerMr c5H)
      rfl (by decide)⟩

/-- C10: when the copy loop executes, `outcount < out_limit` held at the head
of the symbol (the loop breaks first otherwise -- last conjunct), so the
truncated length `min(len, out_limit - outcount)` is at least 1 and in
particular nonzero: the `if len = 0 then 2^32` wrap branch of the embedded
`do/while` counter is never taken, and the copy writes exactly that many
bytes.  Decoded lengths are never below the minimum: `lzma_len` yields 0
(renormalization failure) or at least `MATCH_LEN_MIN = 2`. -/
theorem c10_copy_len (ol : Nat) (mr : Bool) (dor : Nat) (f : Frame) (len : Nat)
    (hL : f.out.length < ol) (hlen : 1 ≤ len) :
    (1 ≤ if ol - f.out.length < len then ol - f.out.length else len)
    ∧ ((if ol - f.out.length < len then ol - f.out.length else len) ≠ 0)
    ∧ (¬ f.out.length - dor ≤ f.rep0 →
        (dict_repeat ol mr dor f len).frame.out.length =
          f.out.length + (if ol - f.out.length < len then ol - f.out.length else len))
    ∧ (∀ (g : Frame) (lr : LRef) (ps : Nat),
        (lzma_len g lr ps).2 = 0 ∨ 2 ≤ (lzma_len g lr ps).2)
    ∧ (∀ (fuel : Nat) (g : Frame), (rc_normalize g).2 = true →
        ol ≤ (rc_normalize g).1.out.length →
        lzma_main (fuel + 1) ol mr dor g = .normal (rc_normalize g).1) := by
  have h0 : (if ol - f.out.length < len then ol - f.out.length else len) ≠ 0 := by
    split <;> omega
  refine ⟨by omega, h0, ?_, ?_, ?_⟩
  · intro hg
    simp only [dict_repeat]
    rw [if_neg hg, if_neg h0]
    split <;> split <;> simp [Step.frame, dict_copy_length]
  · intro g lr ps
    exact lzma_len_pos g lr ps
  · intro fuel g h2 h1
    simp only [lzma_main]
    rw [if_neg (by simp [h2]), if_pos (show (rc_normalize g).1.out.length ≥ ol from h1)]

/-- Witness for C10 at a one-byte dictionary and a length-2 copy. -/
theorem c10_copy_len_witness :
    (mkFrame [7] 0 0).out.length < 5 ∧ 1 ≤ 2 ∧
    ((1 ≤ if 5 - (mkFrame [7] 0 0).out.length < 2 then
        5 - (mkFrame [7] 0 0).out.length else 2)
    ∧ ((if 5 - (mkFrame [7] 0 0).out.length < 2 then
        5 - (mkFrame [7] 0 0).out.length else 2) ≠ 0)
    ∧ (¬ (mkFrame [7] 0 0).out.length - 0 ≤ (mkFrame [7] 0 0).rep0 →
        (dict_repeat 5 false 0 (mkFrame [7] 0 0) 2).frame.out.length =
          (mkFrame [7] 0 0).out.length +
            (if 5 - (mkFrame [7] 0 0).out.length < 2 then
              5 - (mkFrame [7] 0 0).out.length else 2))
    ∧ (∀ (g : Frame) (lr : LRef) (ps : Nat),
        (lzma_len g lr ps).2 = 0 ∨ 2 ≤ (lzma_len g lr ps).2)
    ∧ (∀ (fuel : Nat) (g : Frame), (rc_normalize g).2 = true →
        5 ≤ (rc_normalize g).1.out.length →
        lzma_main (fuel + 1) 5 false 0 g = .normal (rc_normalize g).1)) :=
  ⟨by decide, by decide, c10_copy_len 5 false 0 (mkFrame [7] 0 0) 2 (by decide) (by decide)⟩

/-- C8: decoding the 9-byte stream `01 00 04 68 65 6C 6C 6F 00` into any
output buffer of size at least 5 returns `OK` with exactly the five bytes
`hello`, `*insize_ptr = 9` and `*outsize_ptr = 5`. -/
theorem c8_hello (fuel n : Nat) (h : 5 ≤ n) :
    uncompress_lzma2 (fuel + 2) helloIn 9 n =
      some (.ok, 9, 5, [0x68, 0x65, 0x6C, 0x6C, 0x6F]) := by
  have hn : ¬ n < 5 := by omega
  simp [uncompress_lzma2, uncompressLoop, processChunk, run_uncompressed_chunk,
    initSt, initFrame, helloIn, hn]
  rfl

/-- Witness for C8 at an output buffer of exactly 5 bytes. -/
theorem c8_hello_witness :
    5 ≤ 5 ∧ uncompress_lzma2 2 helloIn 9 5 =
      some (.ok, 9, 5, [0x68, 0x65, 0x6C, 0x6C, 0x6F]) :=
  ⟨by decide, c8_hello 0 5 (by decide)⟩


end Unlzma2
